import Mathlib

/-!
Shallow embedding of the kanban workflow core (Task, Column, Board, engine
operations) from src/kanban.py, followed by theorems settling the spec claims.

Python semantics modelled explicitly:
- mutation becomes explicit state passing (each operation returns the new value);
- an uncaught exception (a failing assert statement, an IndexError) is modelled
  as the Option result none;
- Python list indexing accepts negative indices counting from the back, so board
  operations take the column index as an Int and resolve it through pyIndex;
- writes to the finished-tasks file (the completed-task sink) are returned as an
  explicit list of sink events.
-/

namespace KanbanModel

/-- A task: identity, display name, append-only history of messages.
Embeds class Task of src/kanban.py (fields m_id, m_name, m_messages). -/
structure Task where
  m_id : Nat
  m_name : String
  m_messages : List String
deriving DecidableEq, Repr

/-- Task.add_message: append one entry to the history. -/
def Task.add_message (t : Task) (msg : String) : Task :=
  { t with m_messages := t.m_messages ++ [msg] }

/-- Task.__str__ renders as "{id}. {name}". -/
def Task.display (t : Task) : String :=
  toString t.m_id ++ ". " ++ t.m_name

/-- A column: display name plus the ordered list of tasks it holds.
Embeds class Column of src/kanban.py. -/
structure Column where
  m_name : String
  m_tasks : List Task
deriving DecidableEq, Repr

/-- Column.add_task: if the task value is not already a member, append it after
recording a history entry for this column; the timestamp of datetime.now is
passed in as the string argument time. Returns the bool the Python code
returns. In the source the object is appended and then mutated, so the stored
task carries the new message. -/
def Column.add_task (c : Column) (task : Task) (time : String) : Column × Bool :=
  if task ∈ c.m_tasks then (c, false)
  else
    ({ c with
        m_tasks := c.m_tasks ++ [task.add_message ("> " ++ c.m_name ++ " : " ++ time)] },
     true)

/-- Column.remove_task: select all tasks whose id matches, drop every selected
task from the list, return the first selected one; none when no task matches. -/
def Column.remove_task (c : Column) (task_id : Nat) : Column × Option Task :=
  let selected := c.m_tasks.filter (fun t => t.m_id == task_id)
  match selected with
  | [] => (c, none)
  | t :: _ =>
    ({ c with m_tasks := c.m_tasks.filter (fun x => decide (x ∉ selected)) }, some t)

/-- Column.contains: true when some held task has the given id. -/
def Column.contains (c : Column) (task_id : Nat) : Bool :=
  decide (0 < (c.m_tasks.filter (fun t => t.m_id == task_id)).length)

/-- Column.get_contents: the single-entry mapping from the column name to the
display strings of its tasks. -/
def Column.get_contents (c : Column) : String × List String :=
  (c.m_name, c.m_tasks.map Task.display)

/-- The board: the ordered list of columns. Embeds class Board of src/kanban.py. -/
structure Board where
  m_columns : List Column
deriving DecidableEq, Repr

/-- Python list indexing: a non-negative index counts from the front, a negative
index counts from the back (index i means length + i); anything else raises
IndexError, modelled as none. -/
def pyIndex (n : Nat) (i : Int) : Option Nat :=
  let j : Int := if i < 0 then i + n else i
  if 0 ≤ j ∧ j < n then some j.toNat else none

/-- Board.add_column: append a fresh empty column, return its index. -/
def Board.add_column (b : Board) (name : String) : Board × Nat :=
  let cols := b.m_columns ++ [⟨name, []⟩]
  (⟨cols⟩, cols.length - 1)

/-- What the completed-task sink receives on a terminal advance: the display
string of the task and its full ordered history. -/
abbrev SinkEvent := String × List String

/-- Board.add_task: guarded only by column_id < len(columns) (so negative
indices pass the guard and resolve Python-style); the result bool of
Column.add_task is discarded and true is returned whenever the guard passed. -/
def Board.add_task (b : Board) (column_id : Int) (task : Task) (time : String) :
    Option (Board × Bool) :=
  if column_id < (b.m_columns.length : Int) then
    match pyIndex b.m_columns.length column_id with
    | some j =>
      match b.m_columns[j]? with
      | some c => some (⟨b.m_columns.set j (c.add_task task time).1⟩, true)
      | none => none
    | none => none
  else
    some (b, false)

/-- Board.move_task: when the guard column_id < len(columns) passes, first
remove the task id from every column, then, if anything was removed, assert a
single removal and re-add the removed task to the destination column. A failing
assert or an IndexError on the destination is none. -/
def Board.move_task (b : Board) (column_id : Int) (task_id : Nat) (time : String) :
    Option (Board × Bool) :=
  if column_id < (b.m_columns.length : Int) then
    let results := b.m_columns.map (fun c => c.remove_task task_id)
    let cols : List Column := results.map Prod.fst
    match results.filterMap Prod.snd with
    | [] => some (⟨cols⟩, false)
    | [t] =>
      match pyIndex cols.length column_id with
      | some j =>
        match cols[j]? with
        | some c => some (⟨cols.set j (c.add_task t time).1⟩, true)
        | none => none
      | none => none
    | _ => none
  else
    some (b, false)

/-- Board.advance: find the unique column containing the id (assert otherwise),
remove the task there; if a next column exists add the task to it, else emit one
sink event carrying the task display string and its messages (the write to
finished_tasks.txt). Returns true whenever an owning column was found. -/
def Board.advance (b : Board) (task_id : Nat) (time : String) :
    Option (Board × Bool × List SinkEvent) :=
  match b.m_columns.enum.filter (fun p => p.2.contains task_id) with
  | [] => some (b, false, [])
  | [(col_id, col)] =>
    let new_col := col_id + 1
    match col.remove_task task_id with
    | (col2, some task) =>
      if new_col < b.m_columns.length then
        let cols1 := b.m_columns.set col_id col2
        match cols1[new_col]? with
        | some c2 => some (⟨cols1.set new_col (c2.add_task task time).1⟩, true, [])
        | none => none
      else
        some (⟨b.m_columns.set col_id col2⟩, true, [(task.display, task.m_messages)])
    | (_, none) => none
  | _ => none

/-- The loop body of Board.clean_completed: advance each captured id in turn,
collecting sink events; a failing advance aborts the whole run. -/
def Board.advanceAll : List Nat → Board → String → Option (Board × List SinkEvent)
  | [], b, _ => some (b, [])
  | i :: rest, b, time =>
    match b.advance i time with
    | none => none
    | some (b2, _, evs) =>
      match Board.advanceAll rest b2 time with
      | none => none
      | some (b3, evs2) => some (b3, evs ++ evs2)

/-- Board.clean_completed: capture the ids held by the last column (columns[-1],
an IndexError on an empty board), advance each captured id, return the count of
captured ids. -/
def Board.clean_completed (b : Board) (time : String) :
    Option (Board × Nat × List SinkEvent) :=
  match b.m_columns.getLast? with
  | none => none
  | some lastCol =>
    let ids := lastCol.m_tasks.map Task.m_id
    match Board.advanceAll ids b time with
    | none => none
    | some (b2, evs) => some (b2, ids.length, evs)

/-- Board.remove_task: remove the id from every column, then assert that
exactly one removal happened; the assert fires (none) when zero or several
tasks were removed, so only the single-removal case returns, with true. -/
def Board.remove_task (b : Board) (task_id : Nat) : Option (Board × Bool) :=
  let results := b.m_columns.map (fun c => c.remove_task task_id)
  let cols : List Column := results.map Prod.fst
  match results.filterMap Prod.snd with
  | [_] => some (⟨cols⟩, true)
  | _ => none

/-- Board.get_contents, i.e. dict(ChainMap(*[col.get_contents() ...])) with
CPython semantics: the key order is first-seen order scanning the per-column
mappings from the last to the first (ChainMap.__iter__), and the value of a key
is taken from the first mapping, in column order, that holds it
(ChainMap.__getitem__). -/
def Board.get_contents (b : Board) : List (String × List String) :=
  let maps := b.m_columns.map Column.get_contents
  let keys := maps.reverse.foldl
    (fun acc m => if m.1 ∈ acc then acc else acc ++ [m.1]) ([] : List String)
  keys.filterMap (fun k => (maps.find? (fun m => m.1 == k)).map (fun m => (k, m.2)))

/-- The mapping the spec sentence for contents() describes, written from the
words of the spec for comparison with Board.get_contents: the snapshots are
aggregated in column order and a later column sharing a name overwrites the
earlier entry for that key in place. -/
def contentsSpec (b : Board) : List (String × List String) :=
  b.m_columns.foldl
    (fun acc c =>
      let m := c.get_contents
      if (acc.find? (fun p => p.1 == m.1)).isSome then
        acc.map (fun p => if p.1 == m.1 then m else p)
      else acc ++ [m])
    []

/-- Kanban.__init__: build the board by adding one column per supplied name. -/
def initBoard (columns : List String) : Board :=
  columns.foldl (fun b n => (b.add_column n).1) ⟨[]⟩

/-- The engine state: the process-wide id counter (Task.LAST_TASK_ID) plus the
board. -/
structure KState where
  counter : Nat
  board : Board
deriving DecidableEq, Repr

/-- createTask, i.e. Kanban._new_task: allocate the next id (post-increment of
the counter), then Board.add_task(0, task). -/
def KState.createTask (s : KState) (name time : String) : Option (KState × Nat) :=
  let t : Task := ⟨s.counter, name, []⟩
  match s.board.add_task 0 t time with
  | none => none
  | some (b2, _) => some ({ counter := s.counter + 1, board := b2 }, t.m_id)

/-- The public operations of the workflow engine. -/
inductive Op where
  | create (name time : String)
  | advanceTask (id : Nat) (time : String)
  | moveTask (idx : Int) (id : Nat) (time : String)
  | removeTask (id : Nat)
  | cleanCompleted (time : String)
deriving DecidableEq, Repr

/-- One public operation applied to the engine state. -/
def KState.step (s : KState) : Op → Option KState
  | .create name time => (s.createTask name time).map Prod.fst
  | .advanceTask i time => (s.board.advance i time).map (fun r => { s with board := r.1 })
  | .moveTask idx i time => (s.board.move_task idx i time).map (fun r => { s with board := r.1 })
  | .removeTask i => (s.board.remove_task i).map (fun r => { s with board := r.1 })
  | .cleanCompleted time => (s.board.clean_completed time).map (fun r => { s with board := r.1 })

/-- Run a sequence of public operations. -/
def KState.exec (s : KState) : List Op → Option KState
  | [] => some s
  | op :: rest =>
    match s.step op with
    | none => none
    | some s2 => s2.exec rest

/-- The engine state at startup: counter 0, board built from the column names. -/
def initState (columns : List String) : KState :=
  { counter := 0, board := initBoard columns }

/-- Occurrences of a task id inside one column. -/
def Column.idCount (c : Column) (i : Nat) : Nat :=
  (c.m_tasks.filter (fun t => t.m_id == i)).length

/-- Occurrences of a task id across the whole board. -/
def Board.idCount (b : Board) (i : Nat) : Nat :=
  (b.m_columns.map (fun c => c.idCount i)).sum

/-- The view of a column that ignores one task id: its name and the tasks with
any other id, in order and with their full state. -/
def otherView (c : Column) (t : Nat) : String × List Task :=
  (c.m_name, c.m_tasks.filter (fun x => !(x.m_id == t)))

/-- The invariant carried through the public operations: every id occurs at
most once across the whole board and every id on the board was allocated below
the process-wide counter. -/
def GoodBoard (n : Nat) (b : Board) : Prop :=
  (∀ i, b.idCount i ≤ 1) ∧ (∀ i, 0 < b.idCount i → i < n)

/-- Dropping the selected tasks from a list is the same as dropping every task
carrying the selected id. -/
theorem filter_not_mem_filter (l : List Task) (i : Nat) :
    l.filter (fun x => decide (x ∉ l.filter (fun t => t.m_id == i))) =
      l.filter (fun x => !(x.m_id == i)) := by
  apply List.filter_congr
  intro x hx
  by_cases h : x.m_id = i
  · simp [List.mem_filter, hx, h]
  · simp [List.mem_filter, hx, h]

/-- The column left behind by Column.remove_task: the same name, with every
task of the requested id dropped. -/
theorem Column.remove_task_fst (c : Column) (i : Nat) :
    (c.remove_task i).1 = ⟨c.m_name, c.m_tasks.filter (fun x => !(x.m_id == i))⟩ := by
  unfold Column.remove_task
  cases hsel : c.m_tasks.filter (fun t => t.m_id == i) with
  | nil =>
    have : c.m_tasks.filter (fun x => !(x.m_id == i)) = c.m_tasks := by
      refine List.filter_eq_self.mpr ?_
      intro a ha
      have := List.filter_eq_nil_iff.mp hsel a ha
      simpa using this
    simp [this]
  | cons t rest =>
    simp only []
    rw [← hsel, filter_not_mem_filter]

/-- A task returned by Column.remove_task was a member and carries the id. -/
theorem Column.remove_task_snd_some {c : Column} {i : Nat} {t : Task}
    (h : (c.remove_task i).2 = some t) : t ∈ c.m_tasks ∧ t.m_id = i := by
  unfold Column.remove_task at h
  cases hsel : c.m_tasks.filter (fun x => x.m_id == i) with
  | nil => rw [hsel] at h; simp at h
  | cons u rest =>
    rw [hsel] at h
    simp only [Option.some.injEq] at h
    have hu : u ∈ c.m_tasks.filter (fun x => x.m_id == i) := by rw [hsel]; exact List.mem_cons_self u rest
    have := List.mem_filter.mp hu
    exact h ▸ ⟨this.1, by simpa using this.2⟩

/-- Removing an id no column task carries returns the column untouched. -/
theorem Column.remove_task_not_contains {c : Column} {i : Nat}
    (h : c.contains i = false) : c.remove_task i = (c, none) := by
  unfold Column.contains at h
  unfold Column.remove_task
  cases hsel : c.m_tasks.filter (fun t => t.m_id == i) with
  | nil => simp
  | cons t rest => rw [hsel] at h; simp at h

/-- Removing a contained id succeeds and filters the column. -/
theorem Column.remove_task_contains {c : Column} {i : Nat}
    (h : c.contains i = true) : ∃ t, t ∈ c.m_tasks ∧ t.m_id = i ∧
      c.remove_task i = (⟨c.m_name, c.m_tasks.filter (fun x => !(x.m_id == i))⟩, some t) := by
  have hfst := Column.remove_task_fst c i
  cases hrt : c.remove_task i with
  | mk c2 t? =>
    cases t? with
    | none =>
      unfold Column.contains at h
      unfold Column.remove_task at hrt
      cases hsel : c.m_tasks.filter (fun t => t.m_id == i) with
      | nil => rw [hsel] at h; simp at h
      | cons u rest => rw [hsel] at hrt; simp at hrt
    | some t =>
      refine ⟨t, ?_, ?_, ?_⟩
      · exact (Column.remove_task_snd_some (by rw [hrt])).1
      · exact (Column.remove_task_snd_some (by rw [hrt])).2
      · have hc2 : c2 = ⟨c.m_name, c.m_tasks.filter (fun x => !(x.m_id == i))⟩ := by
          rw [hrt] at hfst
          exact hfst
        rw [hc2]

/-- contains is exactly positivity of the occurrence count. -/
theorem Column.contains_iff_pos (c : Column) (i : Nat) :
    c.contains i = true ↔ 0 < c.idCount i := by
  simp [Column.contains, Column.idCount]

/-- A column not containing an id holds no occurrence of it. -/
theorem Column.idCount_eq_zero (c : Column) (i : Nat)
    (h : c.contains i = false) : c.idCount i = 0 := by
  by_contra hne
  have : c.contains i = true := (Column.contains_iff_pos c i).mpr (Nat.pos_of_ne_zero hne)
  rw [h] at this; exact Bool.false_ne_true this

/-- Occurrence counts after Column.remove_task: the removed id is gone, the
others are untouched. -/
theorem Column.idCount_remove (c : Column) (i j : Nat) :
    ((c.remove_task i).1).idCount j = if j = i then 0 else c.idCount j := by
  rw [Column.remove_task_fst]
  unfold Column.idCount
  simp only [List.filter_filter]
  by_cases h : j = i
  · subst h
    rw [List.filter_eq_nil_iff.mpr]
    · simp
    · intro a _; simp
  · rw [if_neg h]
    congr 1
    apply List.filter_congr
    intro x _
    by_cases hx : x.m_id = j
    · simp [hx, h]
    · simp [hx]

/-- Occurrence counts after Column.add_task never grow by more than the added
task itself. -/
theorem Column.idCount_add_le (c : Column) (t : Task) (time : String) (j : Nat) :
    ((c.add_task t time).1).idCount j ≤ c.idCount j + (if t.m_id = j then 1 else 0) := by
  unfold Column.add_task
  by_cases h : t ∈ c.m_tasks
  · simp [h]
  · simp only [h, if_false, if_neg h]
    unfold Column.idCount
    simp only [List.filter_append, List.length_append]
    by_cases hj : t.m_id = j
    · simp [Task.add_message, hj]
    · simp [Task.add_message, hj]

/-- Occurrence counts of other ids are untouched by Column.add_task. -/
theorem Column.idCount_add_ne (c : Column) (t : Task) (time : String) (j : Nat)
    (h : t.m_id ≠ j) : ((c.add_task t time).1).idCount j = c.idCount j := by
  unfold Column.add_task
  by_cases hm : t ∈ c.m_tasks
  · simp [hm]
  · simp only [hm, if_neg hm]
    unfold Column.idCount
    simp [List.filter_append, Task.add_message, h]

/-- Column.add_task keeps the column name. -/
theorem Column.add_task_fst_name (c : Column) (t : Task) (time : String) :
    ((c.add_task t time).1).m_name = c.m_name := by
  unfold Column.add_task
  by_cases h : t ∈ c.m_tasks <;> simp [h]

/-- Replacing one entry of a Nat list replaces its contribution to the sum. -/
theorem sum_set_nat : ∀ (l : List Nat) (j : Nat) (n : Nat) (hj : j < l.length),
    (l.set j n).sum + l.get ⟨j, hj⟩ = l.sum + n
  | x :: xs, 0, n, _ => by simp [Nat.add_comm, Nat.add_left_comm]
  | x :: xs, j + 1, n, hj => by
    have := sum_set_nat xs j n (Nat.lt_of_succ_lt_succ hj)
    simp only [List.set, List.sum_cons, List.get]
    omega

/-- When no column passes the contains scan, advance returns false, untouched. -/
theorem Board.advance_eq_nil {b : Board} {t : Nat} (time : String)
    (hsel : b.m_columns.enum.filter (fun p => p.2.contains t) = []) :
    b.advance t time = some (b, false, []) := by
  unfold Board.advance
  rw [hsel]

/-- When the contains scan finds two or more columns, the assert fires. -/
theorem Board.advance_eq_multi {b : Board} {t : Nat} (time : String) {x y : Nat × Column}
    {rest : List (Nat × Column)}
    (hsel : b.m_columns.enum.filter (fun p => p.2.contains t) = x :: y :: rest) :
    b.advance t time = none := by
  unfold Board.advance
  rw [hsel]

/-- The non-terminal advance: the owner column is not the last one, so the task
steps into the next column. -/
theorem Board.advance_eq_step {b : Board} {t : Nat} {time : String} {col_id : Nat}
    {col col2 c2 : Column} {task : Task}
    (hsel : b.m_columns.enum.filter (fun p => p.2.contains t) = [(col_id, col)])
    (hrem : col.remove_task t = (col2, some task))
    (hlt : col_id + 1 < b.m_columns.length)
    (hc2 : (b.m_columns.set col_id col2)[col_id + 1]? = some c2) :
    b.advance t time =
      some (⟨(b.m_columns.set col_id col2).set (col_id + 1) (c2.add_task task time).1⟩,
            true, []) := by
  unfold Board.advance
  rw [hsel]
  simp only [hrem, hc2, if_pos hlt]

/-- The terminal advance: the owner column is the last one, so the task leaves
the board and the sink is notified once. -/
theorem Board.advance_eq_terminal {b : Board} {t : Nat} {time : String} {col_id : Nat}
    {col col2 : Column} {task : Task}
    (hsel : b.m_columns.enum.filter (fun p => p.2.contains t) = [(col_id, col)])
    (hrem : col.remove_task t = (col2, some task))
    (hge : ¬ col_id + 1 < b.m_columns.length) :
    b.advance t time =
      some (⟨b.m_columns.set col_id col2⟩, true, [(task.display, task.m_messages)]) := by
  unfold Board.advance
  rw [hsel]
  simp only [hrem, if_neg hge]

/-- An out-of-range-high column index short-circuits add_task. -/
theorem Board.add_task_eq_oob {b : Board} {idx : Int} (task : Task) (time : String)
    (hidx : ¬ idx < (b.m_columns.length : Int)) :
    b.add_task idx task time = some (b, false) := by
  unfold Board.add_task
  rw [if_neg hidx]

/-- An index passing the guard and resolving to a real column adds there. -/
theorem Board.add_task_eq_ok {b : Board} {idx : Int} {j : Nat} {c : Column}
    (task : Task) (time : String)
    (hidx : idx < (b.m_columns.length : Int))
    (hpy : pyIndex b.m_columns.length idx = some j)
    (hc : b.m_columns[j]? = some c) :
    b.add_task idx task time = some (⟨b.m_columns.set j (c.add_task task time).1⟩, true) := by
  unfold Board.add_task
  rw [if_pos hidx]
  simp only [hpy, hc]

/-- An index passing the guard but below -columnCount is an IndexError. -/
theorem Board.add_task_eq_err {b : Board} {idx : Int} (task : Task) (time : String)
    (hidx : idx < (b.m_columns.length : Int))
    (hpy : pyIndex b.m_columns.length idx = none) :
    b.add_task idx task time = none := by
  unfold Board.add_task
  rw [if_pos hidx, hpy]

/-- An out-of-range-high column index short-circuits move_task. -/
theorem Board.move_task_eq_oob {b : Board} {idx : Int} (t : Nat) (time : String)
    (hidx : ¬ idx < (b.m_columns.length : Int)) :
    b.move_task idx t time = some (b, false) := by
  unfold Board.move_task
  rw [if_neg hidx]

/-- move_task on an id held by no column: every column is scrubbed (a no-op per
column) and false is returned. -/
theorem Board.move_task_eq_notfound {b : Board} {idx : Int} {t : Nat} (time : String)
    (hidx : idx < (b.m_columns.length : Int))
    (hfm : (b.m_columns.map (fun c => c.remove_task t)).filterMap Prod.snd = []) :
    b.move_task idx t time =
      some (⟨(b.m_columns.map (fun c => c.remove_task t)).map Prod.fst⟩, false) := by
  unfold Board.move_task
  rw [if_pos hidx]
  simp only [hfm]

/-- move_task when exactly one task was detached and the destination resolves. -/
theorem Board.move_task_eq_found {b : Board} {idx : Int} {t : Nat} {time : String}
    {tk : Task} {j : Nat} {c : Column}
    (hidx : idx < (b.m_columns.length : Int))
    (hfm : (b.m_columns.map (fun c => c.remove_task t)).filterMap Prod.snd = [tk])
    (hpy : pyIndex ((b.m_columns.map (fun c => c.remove_task t)).map Prod.fst).length idx
      = some j)
    (hc : ((b.m_columns.map (fun c => c.remove_task t)).map Prod.fst)[j]? = some c) :
    b.move_task idx t time =
      some (⟨((b.m_columns.map (fun c => c.remove_task t)).map Prod.fst).set j
              (c.add_task tk time).1⟩, true) := by
  unfold Board.move_task
  rw [if_pos hidx]
  simp only [hfm, hpy, hc]

/-- move_task when two or more tasks were detached: the assert fires. -/
theorem Board.move_task_eq_multi {b : Board} {idx : Int} {t : Nat} (time : String)
    {t1 t2 : Task} {ts : List Task}
    (hidx : idx < (b.m_columns.length : Int))
    (hfm : (b.m_columns.map (fun c => c.remove_task t)).filterMap Prod.snd
      = t1 :: t2 :: ts) :
    b.move_task idx t time = none := by
  unfold Board.move_task
  rw [if_pos hidx]
  simp only [hfm]

/-- remove_task with exactly one detached task returns true. -/
theorem Board.remove_task_eq_single {b : Board} {t : Nat} {tk : Task}
    (hfm : (b.m_columns.map (fun c => c.remove_task t)).filterMap Prod.snd = [tk]) :
    b.remove_task t =
      some (⟨(b.m_columns.map (fun c => c.remove_task t)).map Prod.fst⟩, true) := by
  unfold Board.remove_task
  simp only [hfm]

/-- remove_task with no detached task: the assert fires. -/
theorem Board.remove_task_eq_none {b : Board} {t : Nat}
    (hfm : (b.m_columns.map (fun c => c.remove_task t)).filterMap Prod.snd = []) :
    b.remove_task t = none := by
  unfold Board.remove_task
  simp only [hfm]

/-- A scan coming back empty means no column contains the id. -/
theorem enum_filter_nil {l : List Column} {t : Nat}
    (h : l.enum.filter (fun p => p.2.contains t) = []) :
    ∀ (k : Nat) (ck : Column), l[k]? = some ck → ck.contains t = false := by
  intro k ck hk
  by_contra hc
  have hmem : ((k, ck) : Nat × Column) ∈ l.enum :=
    (List.mem_enum_iff_getElem? (x := (k, ck))).mpr hk
  have : ((k, ck) : Nat × Column) ∈ l.enum.filter (fun p => p.2.contains t) := by
    refine List.mem_filter.mpr ⟨hmem, ?_⟩
    simpa using Bool.of_not_eq_false hc
  rw [h] at this
  exact absurd this (List.not_mem_nil _)

/-- A scan coming back a singleton pins down the unique owning column. -/
theorem enum_filter_singleton {l : List Column} {t : Nat} {j : Nat} {c : Column}
    (h : l.enum.filter (fun p => p.2.contains t) = [(j, c)]) :
    l[j]? = some c ∧ c.contains t = true ∧
      (∀ (k : Nat) (ck : Column), l[k]? = some ck → ck.contains t = true → k = j ∧ ck = c) := by
  have hmem : ((j, c) : Nat × Column) ∈ l.enum.filter (fun p => p.2.contains t) := by
    rw [h]; exact List.mem_singleton.mpr rfl
  have h1 := List.mem_filter.mp hmem
  refine ⟨(List.mem_enum_iff_getElem? (x := (j, c))).mp h1.1, by simpa using h1.2, ?_⟩
  intro k ck hk hck
  have : ((k, ck) : Nat × Column) ∈ l.enum.filter (fun p => p.2.contains t) := by
    refine List.mem_filter.mpr
      ⟨(List.mem_enum_iff_getElem? (x := (k, ck))).mpr hk, by simpa using hck⟩
  rw [h] at this
  have := List.mem_singleton.mp this
  exact ⟨congrArg Prod.fst this, congrArg Prod.snd this⟩

/-- A resolved Python index is in range. -/
theorem pyIndex_lt {n : Nat} {i : Int} {j : Nat} (h : pyIndex n i = some j) : j < n := by
  simp only [pyIndex] at h
  by_cases h0 : i < 0
  · rw [if_pos h0] at h
    by_cases hc : 0 ≤ i + (n : Int) ∧ i + (n : Int) < (n : Int)
    · rw [if_pos hc] at h
      cases h
      omega
    · rw [if_neg hc] at h
      cases h
  · rw [if_neg h0] at h
    by_cases hc : 0 ≤ i ∧ i < (n : Int)
    · rw [if_pos hc] at h
      cases h
      omega
    · rw [if_neg hc] at h
      cases h

/-- A plain in-range Nat index resolves to itself. -/
theorem pyIndex_coe {n j : Nat} (h : j < n) : pyIndex n (j : Int) = some j := by
  simp only [pyIndex]
  rw [if_neg (by omega : ¬ ((j : Int) < 0))]
  rw [if_pos (by constructor <;> omega : 0 ≤ (j : Int) ∧ (j : Int) < (n : Int))]
  simp

/-- An in-range negative index resolves by wrap-around. -/
theorem pyIndex_neg {n : Nat} {i : Int} (hlo : -(n : Int) ≤ i) (hhi : i < 0) :
    pyIndex n i = pyIndex n (i + n) := by
  simp only [pyIndex]
  rw [if_pos hhi, if_neg (by omega : ¬ (i + (n : Int) < 0))]

/-- The sum of a mapped list vanishes when it vanishes entrywise by index. -/
theorem sum_map_eq_zero_get {α : Type _} (l : List α) (f : α → Nat)
    (h : ∀ (k : Nat) (hk : k < l.length), f (l.get ⟨k, hk⟩) = 0) : (l.map f).sum = 0 := by
  induction l with
  | nil => rfl
  | cons x xs ih =>
    simp only [List.map_cons, List.sum_cons]
    have h0 : f x = 0 := h 0 (Nat.succ_pos _)
    have hs : (List.map f xs).sum = 0 := ih (fun k hk => h (k + 1) (Nat.succ_lt_succ hk))
    rw [h0, hs]

/-- Replacing one entry of a list replaces its contribution to the mapped sum. -/
theorem sum_map_set {α : Type _} (l : List α) (j : Nat) (a : α) (f : α → Nat)
    (hj : j < l.length) :
    ((l.set j a).map f).sum + f l[j] = (l.map f).sum + f a := by
  rw [List.map_set]
  have := sum_set_nat (l.map f) j (f a) (by simpa using hj)
  simpa using this

/-- A positive entry of a column list makes the whole occurrence sum positive. -/
theorem idCount_pos_of_mem {cols : List Column} {c : Column} (hc : c ∈ cols) {t : Nat}
    (h : 0 < c.idCount t) : 0 < (cols.map (fun x => x.idCount t)).sum := by
  have hmem : c.idCount t ∈ cols.map (fun x => x.idCount t) := List.mem_map_of_mem _ hc
  have := List.single_le_sum (l := cols.map (fun x => x.idCount t))
    (fun x _ => Nat.zero_le x) _ hmem
  omega

/-- Scrubbing an id out of every column zeroes its count and fixes the rest. -/
theorem scrub_idCount (cols : List Column) (t j : Nat) :
    (((cols.map (fun c => c.remove_task t)).map Prod.fst).map (fun c => c.idCount j)).sum
      = if j = t then 0 else (cols.map (fun c => c.idCount j)).sum := by
  rw [List.map_map, List.map_map]
  by_cases hj : j = t
  · subst hj
    rw [if_pos rfl]
    apply List.sum_eq_zero
    intro x hx
    obtain ⟨c, _, rfl⟩ := List.mem_map.mp hx
    simp [Function.comp, Column.idCount_remove]
  · rw [if_neg hj]
    congr 1
    apply List.map_congr_left
    intro c _
    simp [Function.comp, Column.idCount_remove, hj]

/-- A task surfaced by the per-column scrub carries the scrubbed id and came out
of a member column. -/
theorem detached_mem {cols : List Column} {t : Nat} {tk : Task}
    (h : tk ∈ (cols.map (fun c => c.remove_task t)).filterMap Prod.snd) :
    tk.m_id = t ∧ ∃ c ∈ cols, (c.remove_task t).2 = some tk := by
  rw [List.filterMap_map] at h
  obtain ⟨c, hc, hcc⟩ := List.mem_filterMap.mp h
  exact ⟨(Column.remove_task_snd_some hcc).2, c, hc, hcc⟩

/-- The number of columns containing an id is bounded by its occurrence sum. -/
theorem length_filter_contains_le (cols : List Column) (i : Nat) :
    (cols.filter (fun c => c.contains i)).length ≤ (cols.map (fun c => c.idCount i)).sum := by
  induction cols with
  | nil => simp
  | cons c cs ih =>
    simp only [List.filter_cons, List.map_cons, List.sum_cons]
    by_cases hc : c.contains i = true
    · rw [if_pos hc]
      have := (Column.contains_iff_pos c i).mp hc
      simp only [List.length_cons]
      omega
    · rw [if_neg (by simpa using hc)]
      omega

/-- move_task when one task was detached but the destination raises IndexError. -/
theorem Board.move_task_eq_pyerr {b : Board} {idx : Int} {t : Nat} (time : String)
    {tk : Task}
    (hidx : idx < (b.m_columns.length : Int))
    (hfm : (b.m_columns.map (fun c => c.remove_task t)).filterMap Prod.snd = [tk])
    (hpy : pyIndex ((b.m_columns.map (fun c => c.remove_task t)).map Prod.fst).length idx
      = none) :
    b.move_task idx t time = none := by
  unfold Board.move_task
  rw [if_pos hidx]
  simp only [hfm, hpy]

/-- remove_task with two or more detached tasks: the assert fires as well. -/
theorem Board.remove_task_eq_multi {b : Board} {t : Nat} {t1 t2 : Task} {ts : List Task}
    (hfm : (b.m_columns.map (fun c => c.remove_task t)).filterMap Prod.snd
      = t1 :: t2 :: ts) :
    b.remove_task t = none := by
  unfold Board.remove_task
  simp only [hfm]

/-- clean_completed on a board without columns: columns[-1] raises IndexError. -/
theorem Board.clean_eq_nocols {b : Board} (time : String)
    (h : b.m_columns.getLast? = none) : b.clean_completed time = none := by
  unfold Board.clean_completed
  rw [h]

/-- clean_completed when the advancing loop runs through. -/
theorem Board.clean_eq {b : Board} {lastCol : Column} {time : String} {b2 : Board}
    {evs : List SinkEvent}
    (hl : b.m_columns.getLast? = some lastCol)
    (ha : Board.advanceAll (lastCol.m_tasks.map Task.m_id) b time = some (b2, evs)) :
    b.clean_completed time = some (b2, (lastCol.m_tasks.map Task.m_id).length, evs) := by
  unfold Board.clean_completed
  rw [hl]
  simp only [ha]

/-- clean_completed when some advance of the loop fails. -/
theorem Board.clean_eq_err {b : Board} {lastCol : Column} (time : String)
    (hl : b.m_columns.getLast? = some lastCol)
    (ha : Board.advanceAll (lastCol.m_tasks.map Task.m_id) b time = none) :
    b.clean_completed time = none := by
  unfold Board.clean_completed
  rw [hl]
  simp only [ha]

/-- createTask always succeeds and increments the counter. -/
theorem KState.createTask_eq {s : KState} {name time : String} {b2 : Board} {ok : Bool}
    (hadd : s.board.add_task 0 ⟨s.counter, name, []⟩ time = some (b2, ok)) :
    s.createTask name time = some ({ counter := s.counter + 1, board := b2 }, s.counter) := by
  unfold KState.createTask
  simp only [hadd]

/-- Exchanging one column of a board exchanges its contribution to the
occurrence sum. -/
theorem Board.idCount_mk_set {cols : List Column} {jn : Nat} {cj : Column}
    (hcj : cols[jn]? = some cj) (c2 : Column) (j : Nat) :
    (Board.mk (cols.set jn c2)).idCount j + cj.idCount j
      = (Board.mk cols).idCount j + c2.idCount j := by
  obtain ⟨hjl, heq⟩ := List.getElem?_eq_some.mp hcj
  have key := sum_map_set cols jn c2 (fun c => c.idCount j) hjl
  have h2 : (fun c => c.idCount j) cols[jn] = cj.idCount j := by rw [heq]
  simp only [h2] at key
  exact key

/-- Occurrence bookkeeping of add_task: only the added id can grow, by one. -/
theorem Board.add_task_idCount {b : Board} {idx : Int} {task : Task} {time : String}
    {r : Board × Bool} (h : b.add_task idx task time = some r) :
    (∀ j, j ≠ task.m_id → r.1.idCount j = b.idCount j) ∧
    r.1.idCount task.m_id ≤ b.idCount task.m_id + 1 := by
  by_cases hidx : idx < (b.m_columns.length : Int)
  · cases hpy : pyIndex b.m_columns.length idx with
    | none =>
      rw [Board.add_task_eq_err task time hidx hpy] at h
      cases h
    | some jn =>
      have hjl : jn < b.m_columns.length := pyIndex_lt hpy
      rw [Board.add_task_eq_ok task time hidx hpy (List.getElem?_eq_getElem hjl)] at h
      cases h
      dsimp only
      constructor
      · intro j hj
        have key : (Board.mk (b.m_columns.set jn ((b.m_columns[jn].add_task task time).1))).idCount j
              + (b.m_columns[jn]).idCount j
            = b.idCount j + ((b.m_columns[jn].add_task task time).1).idCount j :=
          sum_map_set b.m_columns jn _ (fun c => c.idCount j) hjl
        have e1 : ((b.m_columns[jn].add_task task time).1).idCount j
            = (b.m_columns[jn]).idCount j := Column.idCount_add_ne _ _ _ _ (Ne.symm hj)
        omega
      · have key : (Board.mk (b.m_columns.set jn ((b.m_columns[jn].add_task task time).1))).idCount task.m_id
              + (b.m_columns[jn]).idCount task.m_id
            = b.idCount task.m_id + ((b.m_columns[jn].add_task task time).1).idCount task.m_id :=
          sum_map_set b.m_columns jn _ (fun c => c.idCount task.m_id) hjl
        have e1 : ((b.m_columns[jn].add_task task time).1).idCount task.m_id
            ≤ (b.m_columns[jn]).idCount task.m_id + 1 := by
          simpa using Column.idCount_add_le (b.m_columns[jn]) task time task.m_id
        omega
  · rw [Board.add_task_eq_oob task time hidx] at h
    cases h
    exact ⟨fun j _ => rfl, Nat.le_succ _⟩

/-- Occurrence bookkeeping of remove_task: the removed id vanishes, the rest
keep their counts, nothing appears. -/
theorem Board.remove_task_idCount {b : Board} {t : Nat} {r : Board × Bool}
    (h : b.remove_task t = some r) :
    (∀ j, j ≠ t → r.1.idCount j = b.idCount j) ∧ r.1.idCount t = 0 ∧
      (∀ j, 0 < r.1.idCount j → 0 < b.idCount j) := by
  cases hfm : (b.m_columns.map (fun c => c.remove_task t)).filterMap Prod.snd with
  | nil =>
    rw [Board.remove_task_eq_none hfm] at h
    cases h
  | cons tk ts =>
    cases ts with
    | cons t2 ts2 =>
      rw [Board.remove_task_eq_multi hfm] at h
      cases h
    | nil =>
      rw [Board.remove_task_eq_single hfm] at h
      cases h
      dsimp only
      have hEq : ∀ j, j ≠ t →
          (Board.mk ((b.m_columns.map (fun c => c.remove_task t)).map Prod.fst)).idCount j
            = b.idCount j := by
        intro j hj
        have := scrub_idCount b.m_columns t j
        rw [if_neg hj] at this
        exact this
      have hz : (Board.mk ((b.m_columns.map (fun c => c.remove_task t)).map Prod.fst)).idCount t
          = 0 := by
        have := scrub_idCount b.m_columns t t
        rw [if_pos rfl] at this
        exact this
      refine ⟨hEq, hz, ?_⟩
      intro j hj
      by_cases hjt : j = t
      · subst hjt
        rw [hz] at hj
        exact absurd hj (lt_irrefl 0)
      · rwa [hEq j hjt] at hj

/-- Occurrence bookkeeping of move_task: the moved id ends with at most one
occurrence (or the board is untouched), the rest keep their counts, and nothing
appears out of thin air. -/
theorem Board.move_task_idCount {b : Board} {idx : Int} {t : Nat} {time : String}
    {r : Board × Bool} (h : b.move_task idx t time = some r) :
    (∀ j, j ≠ t → r.1.idCount j = b.idCount j) ∧
    r.1.idCount t ≤ max (b.idCount t) 1 ∧
    (∀ j, 0 < r.1.idCount j → 0 < b.idCount j) := by
  by_cases hidx : idx < (b.m_columns.length : Int)
  · cases hfm : (b.m_columns.map (fun c => c.remove_task t)).filterMap Prod.snd with
    | nil =>
      rw [Board.move_task_eq_notfound time hidx hfm] at h
      cases h
      dsimp only
      have hEq : ∀ j, j ≠ t →
          (Board.mk ((b.m_columns.map (fun c => c.remove_task t)).map Prod.fst)).idCount j
            = b.idCount j := by
        intro j hj
        have := scrub_idCount b.m_columns t j
        rw [if_neg hj] at this
        exact this
      have hz : (Board.mk ((b.m_columns.map (fun c => c.remove_task t)).map Prod.fst)).idCount t
          = 0 := by
        have := scrub_idCount b.m_columns t t
        rw [if_pos rfl] at this
        exact this
      refine ⟨hEq, by rw [hz]; exact Nat.zero_le _, ?_⟩
      intro j hj
      by_cases hjt : j = t
      · subst hjt
        rw [hz] at hj
        exact absurd hj (lt_irrefl 0)
      · rwa [hEq j hjt] at hj
    | cons tk ts =>
      cases ts with
      | cons t2 ts2 =>
        rw [Board.move_task_eq_multi time hidx hfm] at h
        cases h
      | nil =>
        have hmemtk : tk ∈ (b.m_columns.map (fun c => c.remove_task t)).filterMap Prod.snd := by
          rw [hfm]
          exact List.mem_singleton.mpr rfl
        obtain ⟨htid, c0, hc0mem, hc0⟩ := detached_mem hmemtk
        have hposb : 0 < b.idCount t := by
          obtain ⟨hmem, hid⟩ := Column.remove_task_snd_some hc0
          have htkf : tk ∈ c0.m_tasks.filter (fun x => x.m_id == t) :=
            List.mem_filter.mpr ⟨hmem, by simp [hid]⟩
          have hc0pos : 0 < c0.idCount t :=
            List.length_pos.mpr (List.ne_nil_of_mem htkf)
          exact idCount_pos_of_mem hc0mem hc0pos
        cases hpy : pyIndex ((b.m_columns.map (fun c => c.remove_task t)).map Prod.fst).length idx with
        | none =>
          rw [Board.move_task_eq_pyerr time hidx hfm hpy] at h
          cases h
        | some jn =>
          have hjl : jn < ((b.m_columns.map (fun c => c.remove_task t)).map Prod.fst).length :=
            pyIndex_lt hpy
          obtain ⟨cj, hcj⟩ : ∃ c,
              ((b.m_columns.map (fun c => c.remove_task t)).map Prod.fst)[jn]? = some c :=
            ⟨_, List.getElem?_eq_getElem hjl⟩
          rw [Board.move_task_eq_found hidx hfm hpy hcj] at h
          cases h
          dsimp only
          have hallz : ∀ c ∈ (b.m_columns.map (fun c => c.remove_task t)).map Prod.fst,
              c.idCount t = 0 := by
            intro c hcmem
            rw [List.map_map] at hcmem
            obtain ⟨c0x, _, rfl⟩ := List.mem_map.mp hcmem
            simp [Function.comp, Column.idCount_remove]
          have hcjz : cj.idCount t = 0 := hallz _ (List.getElem?_mem hcj)
          have hEq : ∀ j, j ≠ t →
              (Board.mk (((b.m_columns.map (fun c => c.remove_task t)).map Prod.fst).set jn
                ((cj.add_task tk time).1))).idCount j = b.idCount j := by
            intro j hj
            have key := Board.idCount_mk_set hcj ((cj.add_task tk time).1) j
            have e1 : ((cj.add_task tk time).1).idCount j = cj.idCount j := by
              refine Column.idCount_add_ne _ _ _ _ ?_
              rw [htid]
              exact Ne.symm hj
            have e2 : (Board.mk ((b.m_columns.map (fun c => c.remove_task t)).map Prod.fst)).idCount j
                = b.idCount j := by
              have := scrub_idCount b.m_columns t j
              rw [if_neg hj] at this
              exact this
            omega
          refine ⟨hEq, ?_, ?_⟩
          · have key := Board.idCount_mk_set hcj ((cj.add_task tk time).1) t
            have hz : (Board.mk ((b.m_columns.map (fun c => c.remove_task t)).map Prod.fst)).idCount t
                = 0 := by
              have := scrub_idCount b.m_columns t t
              rw [if_pos rfl] at this
              exact this
            have eadd : ((cj.add_task tk time).1).idCount t ≤ cj.idCount t + 1 := by
              simpa [htid] using Column.idCount_add_le cj tk time t
            have hle : (Board.mk (((b.m_columns.map (fun c => c.remove_task t)).map Prod.fst).set jn
                ((cj.add_task tk time).1))).idCount t ≤ 1 := by
              omega
            exact hle.trans (le_max_right _ _)
          · intro j hj
            by_cases hjt : j = t
            · subst hjt
              exact hposb
            · rwa [hEq j hjt] at hj
  · rw [Board.move_task_eq_oob t time hidx] at h
    cases h
    dsimp only
    exact ⟨fun j _ => rfl, le_max_left _ _, fun j hj => hj⟩

/-- Occurrence bookkeeping of advance: the advanced id ends with at most one
occurrence (or the board is untouched), every other id keeps its exact count,
and nothing appears out of thin air. -/
theorem Board.advance_idCount {b : Board} {t : Nat} {time : String}
    {r : Board × Bool × List SinkEvent} (h : b.advance t time = some r) :
    (∀ j, j ≠ t → r.1.idCount j = b.idCount j) ∧
    r.1.idCount t ≤ max (b.idCount t) 1 ∧
    (∀ j, 0 < r.1.idCount j → 0 < b.idCount j) := by
  cases hsel : b.m_columns.enum.filter (fun p => p.2.contains t) with
  | nil =>
    rw [Board.advance_eq_nil time hsel] at h
    cases h
    dsimp only
    exact ⟨fun _ _ => rfl, le_max_left _ _, fun _ hj => hj⟩
  | cons x xs =>
    cases xs with
    | cons y ys =>
      rw [Board.advance_eq_multi time hsel] at h
      cases h
    | nil =>
      obtain ⟨col_id, col⟩ := x
      obtain ⟨hget, hcont, huniq⟩ := enum_filter_singleton hsel
      obtain ⟨task, htm, htid, hrem⟩ := Column.remove_task_contains hcont
      obtain ⟨hcl, hcole⟩ := List.getElem?_eq_some.mp hget
      have hposb : 0 < b.idCount t := by
        refine idCount_pos_of_mem (List.getElem?_mem hget) ?_
        exact (Column.contains_iff_pos col t).mp hcont
      have hcol2t : ∀ j, (⟨col.m_name, col.m_tasks.filter (fun x => !(x.m_id == t))⟩
          : Column).idCount j = if j = t then 0 else col.idCount j := by
        intro j
        have := Column.idCount_remove col t j
        rw [hrem] at this
        exact this
      have hEq1 : ∀ j, j ≠ t →
          (Board.mk (b.m_columns.set col_id
            ⟨col.m_name, col.m_tasks.filter (fun x => !(x.m_id == t))⟩)).idCount j
            = b.idCount j := by
        intro j hj
        have key := Board.idCount_mk_set hget
          (⟨col.m_name, col.m_tasks.filter (fun x => !(x.m_id == t))⟩ : Column) j
        have e0 : (Board.mk b.m_columns).idCount j = b.idCount j := rfl
        have e1 := hcol2t j
        rw [if_neg hj] at e1
        omega
      have hz1 : ∀ (k : Nat) (hk : k < (b.m_columns.set col_id
          ⟨col.m_name, col.m_tasks.filter (fun x => !(x.m_id == t))⟩).length),
          ((b.m_columns.set col_id
            ⟨col.m_name, col.m_tasks.filter (fun x => !(x.m_id == t))⟩).get ⟨k, hk⟩).idCount t
            = 0 := by
        intro k hk
        have hk2 : k < b.m_columns.length := by simpa using hk
        rw [List.get_eq_getElem, List.getElem_set]
        by_cases hkc : col_id = k
        · rw [if_pos hkc]
          have := hcol2t t
          rw [if_pos rfl] at this
          exact this
        · rw [if_neg hkc]
          apply Column.idCount_eq_zero
          cases hb : (b.m_columns[k]).contains t with
          | false => rfl
          | true =>
            exact absurd (huniq k (b.m_columns[k]) (List.getElem?_eq_getElem hk2) hb).1
              (fun he => hkc he.symm)
      have hS1 : (Board.mk (b.m_columns.set col_id
          ⟨col.m_name, col.m_tasks.filter (fun x => !(x.m_id == t))⟩)).idCount t = 0 :=
        sum_map_eq_zero_get _ _ hz1
      by_cases hlt : col_id + 1 < b.m_columns.length
      · obtain ⟨c2, hc2⟩ : ∃ c, (b.m_columns.set col_id
            ⟨col.m_name, col.m_tasks.filter (fun x => !(x.m_id == t))⟩)[col_id + 1]? = some c :=
          ⟨_, List.getElem?_eq_getElem (by simpa using hlt)⟩
        rw [Board.advance_eq_step hsel hrem hlt hc2] at h
        cases h
        dsimp only
        have hc2z : c2.idCount t = 0 := by
          obtain ⟨hb2, he2⟩ := List.getElem?_eq_some.mp hc2
          rw [← he2]
          exact hz1 (col_id + 1) hb2
        have hEq2 : ∀ j, j ≠ t →
            (Board.mk ((b.m_columns.set col_id
              ⟨col.m_name, col.m_tasks.filter (fun x => !(x.m_id == t))⟩).set (col_id + 1)
              ((c2.add_task task time).1))).idCount j = b.idCount j := by
          intro j hj
          have key := Board.idCount_mk_set hc2 ((c2.add_task task time).1) j
          have e1 : ((c2.add_task task time).1).idCount j = c2.idCount j := by
            refine Column.idCount_add_ne _ _ _ _ ?_
            rw [htid]
            exact Ne.symm hj
          have e2 := hEq1 j hj
          omega
        refine ⟨hEq2, ?_, ?_⟩
        · have key := Board.idCount_mk_set hc2 ((c2.add_task task time).1) t
          have eadd : ((c2.add_task task time).1).idCount t ≤ c2.idCount t + 1 := by
            simpa [htid] using Column.idCount_add_le c2 task time t
          have hle : (Board.mk ((b.m_columns.set col_id
              ⟨col.m_name, col.m_tasks.filter (fun x => !(x.m_id == t))⟩).set (col_id + 1)
              ((c2.add_task task time).1))).idCount t ≤ 1 := by
            omega
          exact hle.trans (le_max_right _ _)
        · intro j hj
          by_cases hjt : j = t
          · subst hjt
            exact hposb
          · rwa [hEq2 j hjt] at hj
      · rw [Board.advance_eq_terminal hsel hrem hlt] at h
        cases h
        dsimp only
        refine ⟨hEq1, ?_, ?_⟩
        · rw [hS1]
          exact Nat.zero_le _
        · intro j hj
          by_cases hjt : j = t
          · subst hjt
            exact hposb
          · rwa [hEq1 j hjt] at hj

theorem GoodBoard.advance_pres {n : Nat} {b : Board} {t : Nat} {time : String}
    {r : Board × Bool × List SinkEvent} (hg : GoodBoard n b)
    (h : b.advance t time = some r) : GoodBoard n r.1 := by
  obtain ⟨hEq, hle, hpos⟩ := Board.advance_idCount h
  refine ⟨?_, fun i hi => hg.2 i (hpos i hi)⟩
  intro i
  by_cases hit : i = t
  · rw [hit]
    exact le_trans hle (Nat.max_le.mpr ⟨hg.1 t, le_refl 1⟩)
  · rw [hEq i hit]
    exact hg.1 i

theorem GoodBoard.move_pres {n : Nat} {b : Board} {idx : Int} {t : Nat} {time : String}
    {r : Board × Bool} (hg : GoodBoard n b)
    (h : b.move_task idx t time = some r) : GoodBoard n r.1 := by
  obtain ⟨hEq, hle, hpos⟩ := Board.move_task_idCount h
  refine ⟨?_, fun i hi => hg.2 i (hpos i hi)⟩
  intro i
  by_cases hit : i = t
  · rw [hit]
    exact le_trans hle (Nat.max_le.mpr ⟨hg.1 t, le_refl 1⟩)
  · rw [hEq i hit]
    exact hg.1 i

theorem GoodBoard.remove_pres {n : Nat} {b : Board} {t : Nat}
    {r : Board × Bool} (hg : GoodBoard n b)
    (h : b.remove_task t = some r) : GoodBoard n r.1 := by
  obtain ⟨hEq, hz, hpos⟩ := Board.remove_task_idCount h
  refine ⟨?_, fun i hi => hg.2 i (hpos i hi)⟩
  intro i
  by_cases hit : i = t
  · subst hit
    rw [hz]
    omega
  · rw [hEq i hit]
    exact hg.1 i

/-- advanceAll when the first advance fails. -/
theorem Board.advanceAll_cons_err {i : Nat} (rest : List Nat) {b : Board} {time : String}
    (hadv : b.advance i time = none) :
    Board.advanceAll (i :: rest) b time = none := by
  show (match b.advance i time with
    | none => none
    | some (b2, _, evs) =>
      match Board.advanceAll rest b2 time with
      | none => none
      | some (b3, evs2) => some (b3, evs ++ evs2)) = none
  rw [hadv]

/-- advanceAll when a later advance fails. -/
theorem Board.advanceAll_cons_err2 {i : Nat} (rest : List Nat) {b qb : Board}
    {time : String} {qok : Bool} {qevs : List SinkEvent}
    (hadv : b.advance i time = some (qb, qok, qevs))
    (hrest : Board.advanceAll rest qb time = none) :
    Board.advanceAll (i :: rest) b time = none := by
  show (match b.advance i time with
    | none => none
    | some (b2, _, evs) =>
      match Board.advanceAll rest b2 time with
      | none => none
      | some (b3, evs2) => some (b3, evs ++ evs2)) = none
  rw [hadv]
  simp only [hrest]

/-- advanceAll stepping through the first advance. -/
theorem Board.advanceAll_cons_some {i : Nat} (rest : List Nat) {b qb b3 : Board}
    {time : String} {qok : Bool} {qevs evs2 : List SinkEvent}
    (hadv : b.advance i time = some (qb, qok, qevs))
    (hrest : Board.advanceAll rest qb time = some (b3, evs2)) :
    Board.advanceAll (i :: rest) b time = some (b3, qevs ++ evs2) := by
  show (match b.advance i time with
    | none => none
    | some (b2, _, evs) =>
      match Board.advanceAll rest b2 time with
      | none => none
      | some (b3, evs2) => some (b3, evs ++ evs2)) = some (b3, qevs ++ evs2)
  rw [hadv]
  simp only [hrest]

theorem GoodBoard.advanceAll_pres {n : Nat} {time : String} :
    ∀ (ids : List Nat) {b : Board} {p : Board × List SinkEvent},
      GoodBoard n b → Board.advanceAll ids b time = some p → GoodBoard n p.1 := by
  intro ids
  induction ids with
  | nil =>
    intro b p hg h
    unfold Board.advanceAll at h
    cases h
    exact hg
  | cons i rest ih =>
    intro b p hg h
    cases hadv : b.advance i time with
    | none =>
      rw [Board.advanceAll_cons_err rest hadv] at h
      cases h
    | some q =>
      obtain ⟨qb, qok, qevs⟩ := q
      cases hrest : Board.advanceAll rest qb time with
      | none =>
        rw [Board.advanceAll_cons_err2 rest hadv hrest] at h
        cases h
      | some p2 =>
        obtain ⟨p2b, p2evs⟩ := p2
        rw [Board.advanceAll_cons_some rest hadv hrest] at h
        cases h
        exact ih (p := (p2b, p2evs)) (GoodBoard.advance_pres hg hadv) hrest

theorem GoodBoard.clean_pres {n : Nat} {b : Board} {time : String}
    {r : Board × Nat × List SinkEvent} (hg : GoodBoard n b)
    (h : b.clean_completed time = some r) : GoodBoard n r.1 := by
  cases hl : b.m_columns.getLast? with
  | none =>
    rw [Board.clean_eq_nocols time hl] at h
    cases h
  | some lastCol =>
    cases ha : Board.advanceAll (lastCol.m_tasks.map Task.m_id) b time with
    | none =>
      rw [Board.clean_eq_err time hl ha] at h
      cases h
    | some p =>
      obtain ⟨b2, evs⟩ := p
      rw [Board.clean_eq hl ha] at h
      cases h
      exact GoodBoard.advanceAll_pres _ hg ha

/-- createTask when the underlying add fails (cannot actually happen, but the
case analysis needs the equation). -/
theorem KState.createTask_eq_none {s : KState} {name time : String}
    (hadd : s.board.add_task 0 ⟨s.counter, name, []⟩ time = none) :
    s.createTask name time = none := by
  unfold KState.createTask
  simp only [hadd]

/-- One engine step preserves the invariant (at the stepped counter). -/
theorem step_good {s s2 : KState} {op : Op} (h : s.step op = some s2)
    (hg : GoodBoard s.counter s.board) : GoodBoard s2.counter s2.board := by
  cases op with
  | create name time =>
    simp only [KState.step] at h
    cases hct : s.board.add_task 0 ⟨s.counter, name, []⟩ time with
    | none =>
      rw [KState.createTask_eq_none hct] at h
      cases h
    | some p =>
      obtain ⟨b2, ok⟩ := p
      rw [KState.createTask_eq hct] at h
      simp only [Option.map_some'] at h
      cases h
      obtain ⟨hEq, hle⟩ := Board.add_task_idCount hct
      dsimp only at hEq hle
      constructor
      · intro i
        by_cases hic : i = s.counter
        · subst hic
          have hz : s.board.idCount s.counter = 0 := by
            by_contra hnz
            exact lt_irrefl _ (hg.2 s.counter (Nat.pos_of_ne_zero hnz))
          have := hle
          dsimp only
          omega
        · dsimp only
          rw [hEq i hic]
          exact hg.1 i
      · intro i hi
        dsimp only at hi ⊢
        by_cases hic : i = s.counter
        · subst hic
          exact Nat.lt_succ_self _
        · rw [hEq i hic] at hi
          exact Nat.lt_succ_of_lt (hg.2 i hi)
  | advanceTask i time =>
    simp only [KState.step] at h
    cases hadv : s.board.advance i time with
    | none => rw [hadv] at h; cases h
    | some r =>
      rw [hadv] at h
      simp only [Option.map_some'] at h
      cases h
      exact GoodBoard.advance_pres hg hadv
  | moveTask idx i time =>
    simp only [KState.step] at h
    cases hmv : s.board.move_task idx i time with
    | none => rw [hmv] at h; cases h
    | some r =>
      rw [hmv] at h
      simp only [Option.map_some'] at h
      cases h
      exact GoodBoard.move_pres hg hmv
  | removeTask i =>
    simp only [KState.step] at h
    cases hrm : s.board.remove_task i with
    | none => rw [hrm] at h; cases h
    | some r =>
      rw [hrm] at h
      simp only [Option.map_some'] at h
      cases h
      exact GoodBoard.remove_pres hg hrm
  | cleanCompleted time =>
    simp only [KState.step] at h
    cases hcl : s.board.clean_completed time with
    | none => rw [hcl] at h; cases h
    | some r =>
      rw [hcl] at h
      simp only [Option.map_some'] at h
      cases h
      exact GoodBoard.clean_pres hg hcl

/-- Executing from a failed step fails. -/
theorem KState.exec_cons_none {s : KState} {op : Op} (rest : List Op)
    (h : s.step op = none) : s.exec (op :: rest) = none := by
  show (match s.step op with
    | none => none
    | some s2 => s2.exec rest) = none
  rw [h]

/-- Executing from a successful step continues from the new state. -/
theorem KState.exec_cons_some {s s1 : KState} {op : Op} (rest : List Op)
    (h : s.step op = some s1) : s.exec (op :: rest) = s1.exec rest := by
  show (match s.step op with
    | none => none
    | some s2 => s2.exec rest) = s1.exec rest
  rw [h]

/-- Running any sequence of operations preserves the invariant. -/
theorem exec_good : ∀ (ops : List Op) (s s2 : KState), s.exec ops = some s2 →
    GoodBoard s.counter s.board → GoodBoard s2.counter s2.board := by
  intro ops
  induction ops with
  | nil =>
    intro s s2 h hg
    unfold KState.exec at h
    cases h
    exact hg
  | cons op rest ih =>
    intro s s2 h hg
    cases hst : s.step op with
    | none =>
      rw [KState.exec_cons_none rest hst] at h
      cases h
    | some s1 =>
      rw [KState.exec_cons_some rest hst] at h
      exact ih s1 s2 h (step_good hst hg)

/-- The columns the startup fold builds: one empty column per supplied name. -/
theorem initBoard_columns (names : List String) :
    (initBoard names).m_columns = names.map (fun n => ⟨n, []⟩) := by
  suffices h : ∀ (ns : List String) (b : Board),
      (ns.foldl (fun b n => (b.add_column n).1) b).m_columns
        = b.m_columns ++ ns.map (fun n => ⟨n, []⟩) by
    simpa using h names ⟨[]⟩
  intro ns
  induction ns with
  | nil => intro b; simp
  | cons n ns2 ih =>
    intro b
    simp only [List.foldl_cons, List.map_cons]
    rw [ih]
    simp [Board.add_column]

/-- The startup board holds no task at all. -/
theorem initBoard_idCount (names : List String) (i : Nat) :
    (initBoard names).idCount i = 0 := by
  unfold Board.idCount
  rw [initBoard_columns, List.map_map]
  apply List.sum_eq_zero
  intro x hx
  obtain ⟨nm, _, rfl⟩ := List.mem_map.mp hx
  simp [Function.comp, Column.idCount]

/-- The startup state satisfies the invariant. -/
theorem initState_good (names : List String) :
    GoodBoard (initState names).counter (initState names).board := by
  constructor
  · intro i
    rw [(by rfl : (initState names).board = initBoard names), initBoard_idCount]
    omega
  · intro i hi
    rw [(by rfl : (initState names).board = initBoard names), initBoard_idCount] at hi
    exact absurd hi (lt_irrefl 0)

/-- Claim C8: for all sequences of the public operations run from a fresh
engine, at every point in time each task id is present in at most one column of
the board. -/
theorem exec_each_id_in_at_most_one_column (names : List String) (ops : List Op)
    (s : KState) (h : (initState names).exec ops = some s) (i : Nat) :
    (s.board.m_columns.filter (fun c => c.contains i)).length ≤ 1 := by
  have hg : GoodBoard s.counter s.board :=
    exec_good ops (initState names) s h (initState_good names)
  have h1 := length_filter_contains_le s.board.m_columns i
  have h2 : s.board.idCount i ≤ 1 := hg.1 i
  exact le_trans h1 h2

/-- A column containing a member task contains its id. -/
theorem Column.contains_of_mem {c : Column} {x : Task} {i : Nat}
    (hx : x ∈ c.m_tasks) (hi : x.m_id = i) : c.contains i = true := by
  rw [Column.contains_iff_pos]
  refine List.length_pos.mpr (List.ne_nil_of_mem (a := x) ?_)
  exact List.mem_filter.mpr ⟨hx, by simp [hi]⟩

/-- Writing at the position right after a prefix replaces the appended cell. -/
theorem set_append_length {α : Type _} (l₁ : List α) (c x : α) :
    (l₁ ++ [c]).set l₁.length x = l₁ ++ [x] := by
  rw [List.set_append, if_neg (lt_irrefl _)]
  simp

/-- advance on an id held by no column is a no-op returning false. -/
theorem Board.advance_absent {b : Board} {t : Nat} (time : String)
    (h : ∀ c' ∈ b.m_columns, c'.contains t = false) :
    b.advance t time = some (b, false, []) := by
  apply Board.advance_eq_nil
  apply List.filter_eq_nil_iff.mpr
  intro x hx
  have hmem : x.2 ∈ b.m_columns :=
    List.getElem?_mem ((List.mem_enum_iff_getElem? (x := x)).mp hx)
  simp [h x.2 hmem]

/-- advance on an id held only by the very last column: the terminal branch
runs, the id is scrubbed from the last column and one sink event is emitted. -/
theorem Board.advance_last {l₁ : List Column} {c : Column} {t : Nat} (time : String)
    (hothers : ∀ c' ∈ l₁, c'.contains t = false)
    (hc : c.contains t = true) :
    ∃ task : Task, (Board.mk (l₁ ++ [c])).advance t time =
      some (⟨l₁ ++ [⟨c.m_name, c.m_tasks.filter (fun x => !(x.m_id == t))⟩]⟩, true,
        [(task.display, task.m_messages)]) := by
  have hsel : (Board.mk (l₁ ++ [c])).m_columns.enum.filter (fun p => p.2.contains t)
      = [(l₁.length, c)] := by
    show (l₁ ++ [c]).enum.filter (fun p => p.2.contains t) = [(l₁.length, c)]
    rw [List.enum_append, List.filter_append]
    have h1 : l₁.enum.filter (fun p => p.2.contains t) = [] := by
      apply List.filter_eq_nil_iff.mpr
      intro x hx
      have hmem : x.2 ∈ l₁ :=
        List.getElem?_mem ((List.mem_enum_iff_getElem? (x := x)).mp hx)
      simp [hothers x.2 hmem]
    rw [h1]
    simp [List.enumFrom, hc]
  obtain ⟨task, _, _, hrem⟩ := Column.remove_task_contains hc
  have hge : ¬ l₁.length + 1 < (Board.mk (l₁ ++ [c])).m_columns.length := by
    simp
  refine ⟨task, ?_⟩
  rw [Board.advance_eq_terminal hsel hrem hge]
  dsimp only
  simp only [set_append_length]

/-- Running the clean-completed loop over ids that only the last column can
hold: every non-last column is untouched and the last column ends up scrubbed
of all the processed ids. -/
theorem Board.advanceAll_last (time : String) :
    ∀ (ids : List Nat) (l₁ : List Column) (c : Column),
      (∀ i ∈ ids, ∀ c' ∈ l₁, c'.contains i = false) →
      ∃ evs, Board.advanceAll ids ⟨l₁ ++ [c]⟩ time =
        some (⟨l₁ ++ [⟨c.m_name, c.m_tasks.filter (fun x => decide (x.m_id ∉ ids))⟩]⟩, evs) := by
  intro ids
  induction ids with
  | nil =>
    intro l₁ c h
    refine ⟨[], ?_⟩
    unfold Board.advanceAll
    simp
  | cons i rest ih =>
    intro l₁ c h
    cases hc : c.contains i with
    | true =>
      obtain ⟨task, hadv⟩ :=
        Board.advance_last time (fun c' hm => h i (List.mem_cons_self i rest) c' hm) hc
      obtain ⟨evs2, hrest⟩ := ih l₁ ⟨c.m_name, c.m_tasks.filter (fun x => !(x.m_id == i))⟩
        (fun i2 hi2 c' hm => h i2 (List.mem_cons_of_mem i hi2) c' hm)
      dsimp only at hrest
      have hfil : (c.m_tasks.filter (fun x => !(x.m_id == i))).filter
            (fun x => decide (x.m_id ∉ rest))
          = c.m_tasks.filter (fun x => decide (x.m_id ∉ i :: rest)) := by
        rw [List.filter_filter]
        apply List.filter_congr
        intro x _
        by_cases h1 : x.m_id = i
        · simp [h1]
        · by_cases h2 : x.m_id ∈ rest
          · simp [h1, h2]
          · simp [h1, h2]
      rw [hfil] at hrest
      exact ⟨_, Board.advanceAll_cons_some rest hadv hrest⟩
    | false =>
      have habs : Board.advance ⟨l₁ ++ [c]⟩ i time = some (⟨l₁ ++ [c]⟩, false, []) := by
        apply Board.advance_absent
        intro c' hm
        rcases List.mem_append.mp hm with hm1 | hm2
        · exact h i (List.mem_cons_self i rest) c' hm1
        · rw [List.mem_singleton.mp hm2]
          exact hc
      obtain ⟨evs2, hrest⟩ := ih l₁ c
        (fun i2 hi2 c' hm => h i2 (List.mem_cons_of_mem i hi2) c' hm)
      have hfil2 : c.m_tasks.filter (fun x => decide (x.m_id ∉ rest))
          = c.m_tasks.filter (fun x => decide (x.m_id ∉ i :: rest)) := by
        apply List.filter_congr
        intro x hx
        have hxi : x.m_id ≠ i := by
          intro he
          rw [Column.contains_of_mem hx he] at hc
          cases hc
        simp [List.mem_cons, hxi]
      rw [hfil2] at hrest
      exact ⟨_, Board.advanceAll_cons_some rest habs hrest⟩

/-- The general run of clean_completed on a nonempty board whose ids each live
in at most one column: it empties the last column, leaves the other columns
untouched, and returns the number of tasks the last column held. -/
theorem clean_completed_run (b : Board) (time : String) (hne : b.m_columns ≠ [])
    (huniq : ∀ i, (b.m_columns.filter (fun c => c.contains i)).length ≤ 1) :
    ∃ evs, b.clean_completed time =
      some (⟨b.m_columns.dropLast ++ [⟨(b.m_columns.getLast hne).m_name, []⟩]⟩,
        (b.m_columns.getLast hne).m_tasks.length, evs) := by
  have hdecomp : b.m_columns = b.m_columns.dropLast ++ [b.m_columns.getLast hne] :=
    (List.dropLast_append_getLast hne).symm
  have hl : b.m_columns.getLast? = some (b.m_columns.getLast hne) :=
    List.getLast?_eq_getLast _ hne
  have hcond : ∀ i ∈ (b.m_columns.getLast hne).m_tasks.map Task.m_id,
      ∀ c' ∈ b.m_columns.dropLast, c'.contains i = false := by
    intro i hi c' hc'
    cases hcb : c'.contains i with
    | false => rfl
    | true =>
      exfalso
      have hlast : (b.m_columns.getLast hne).contains i = true := by
        obtain ⟨x, hx, rfl⟩ := List.mem_map.mp hi
        exact Column.contains_of_mem hx rfl
      have hcg := congrArg (fun l => (l.filter (fun c => c.contains i)).length) hdecomp
      dsimp only at hcg
      have h2 : 2 ≤ (b.m_columns.filter (fun c => c.contains i)).length := by
        rw [hcg, List.filter_append, List.length_append]
        have hmem : c' ∈ b.m_columns.dropLast.filter (fun c => c.contains i) :=
          List.mem_filter.mpr ⟨hc', hcb⟩
        have h1 : 1 ≤ (b.m_columns.dropLast.filter (fun c => c.contains i)).length :=
          List.length_pos.mpr (List.ne_nil_of_mem hmem)
        have h3 : (List.filter (fun c => c.contains i) [b.m_columns.getLast hne]).length = 1 := by
          simp [List.filter_cons, hlast]
        omega
      have := huniq i
      omega
  obtain ⟨evs, hfold⟩ := Board.advanceAll_last time
    ((b.m_columns.getLast hne).m_tasks.map Task.m_id)
    b.m_columns.dropLast (b.m_columns.getLast hne) hcond
  have hbb : Board.mk (b.m_columns.dropLast ++ [b.m_columns.getLast hne]) = b := by
    rw [← hdecomp]
  rw [hbb] at hfold
  have hempty : (b.m_columns.getLast hne).m_tasks.filter
      (fun x => decide (x.m_id ∉ (b.m_columns.getLast hne).m_tasks.map Task.m_id)) = [] := by
    apply List.filter_eq_nil_iff.mpr
    intro a ha
    simp only [decide_eq_true_eq, Decidable.not_not, List.mem_map, not_forall, not_not]
    exact ⟨a, ha, rfl⟩
  rw [hempty] at hfold
  refine ⟨evs, ?_⟩
  have hres := Board.clean_eq hl hfold
  simpa [List.length_map] using hres

/-- Claim C6: on every nonempty board satisfying the board invariant (each id
in at most one column) whose last column holds k tasks, cleanCompleted returns
k, the last column is empty afterwards, and every other column is untouched. -/
theorem clean_completed_count (b : Board) (time : String) (hne : b.m_columns ≠ [])
    (huniq : ∀ i, (b.m_columns.filter (fun c => c.contains i)).length ≤ 1) :
    ∃ evs, b.clean_completed time =
      some (⟨b.m_columns.dropLast ++ [⟨(b.m_columns.getLast hne).m_name, []⟩]⟩,
        (b.m_columns.getLast hne).m_tasks.length, evs) :=
  clean_completed_run b time hne huniq

/-- Witness for claim C6: a one-column board holding one completed task. -/
theorem clean_completed_count_witness :
    ∃ evs, Board.clean_completed ⟨[⟨"Done", [⟨0, "A", []⟩]⟩]⟩ "t"
      = some (⟨[⟨"Done", ([] : List Task)⟩]⟩, 1, evs) := by
  have h := clean_completed_count ⟨[⟨"Done", [⟨0, "A", []⟩]⟩]⟩ "t" (by simp)
    (fun i => List.length_filter_le _ _)
  simpa using h

/-- Claim C9: clean_completed accesses the last column unconditionally, so it
fails (IndexError, modelled none) exactly when the board has no columns; on a
board with at least one column satisfying the board invariant it always runs to
completion. -/
theorem clean_completed_totality (b : Board) (time : String) :
    (b.m_columns = [] → b.clean_completed time = none) ∧
    (b.m_columns ≠ [] →
      (∀ i, (b.m_columns.filter (fun c => c.contains i)).length ≤ 1) →
      (b.clean_completed time).isSome = true) := by
  constructor
  · intro h
    apply Board.clean_eq_nocols
    rw [h]
    rfl
  · intro hne huniq
    obtain ⟨evs, hcl⟩ := clean_completed_run b time hne huniq
    rw [hcl]
    rfl

/-- Witness for claim C9: the empty board fails, a one-column board runs. -/
theorem clean_completed_totality_witness :
    Board.clean_completed ⟨[]⟩ "t" = none ∧
    (Board.clean_completed ⟨[⟨"Done", [⟨0, "A", []⟩]⟩]⟩ "t").isSome = true :=
  ⟨(clean_completed_totality ⟨[]⟩ "t").1 rfl,
   (clean_completed_totality ⟨[⟨"Done", [⟨0, "A", []⟩]⟩]⟩ "t").2 (by simp)
     (fun i => List.length_filter_le _ _)⟩

/-- Claim C1: the code contradicts the claim. On a three-column board holding
only task 0, removeTask 999 (an id not present anywhere) does not return false
as the claim demands: the assert that exactly one removal happened fires
(AssertionError, modelled as none), because zero tasks were removed. -/
theorem remove_task_unknown_id_asserts :
    Board.remove_task ⟨[⟨"New", [⟨0, "A", []⟩]⟩, ⟨"Dev", []⟩, ⟨"Done", []⟩]⟩ 999 = none := by
  rfl

/-- Claim C2 counterexample: on a board whose first and third columns are both
named X, the first holding task 0, contents() keeps the snapshot of the EARLIER
column named X, while the claim predicts the later column overwrites it. -/
theorem get_contents_ne_spec_aggregate :
    Board.get_contents ⟨[⟨"X", [⟨0, "a", []⟩]⟩, ⟨"Y", [⟨1, "b", []⟩]⟩, ⟨"X", []⟩]⟩ ≠
      contentsSpec ⟨[⟨"X", [⟨0, "a", []⟩]⟩, ⟨"Y", [⟨1, "b", []⟩]⟩, ⟨"X", []⟩]⟩ := by
  decide

/-- Claim C3 counterexample: the negative column index -1 is NOT rejected by
addTask: on a one-column board it passes the guard, wraps around to the last
column Python-style, mutates the board and returns true, where the claim
demands false and an unchanged board. -/
theorem add_task_negative_index_succeeds :
    Board.add_task ⟨[⟨"A", []⟩]⟩ (-1) ⟨0, "x", []⟩ "ts" =
      some (⟨[⟨"A", [⟨0, "x", ["> A : ts"]⟩]⟩]⟩, true) ∧
    Board.add_task ⟨[⟨"A", []⟩]⟩ (-1) ⟨0, "x", []⟩ "ts" ≠
      some (⟨[⟨"A", []⟩]⟩, false) := by
  exact ⟨rfl, by decide⟩

/-- Claim C4 counterexample: adding a task already present in the in-range
destination column returns TRUE, not false as the claim states: Board.add_task
discards the duplicate rejection of Column.add_task. The board is unchanged
and no history entry is appended, but the boolean contradicts the claim. -/
theorem add_task_duplicate_returns_true :
    Board.add_task ⟨[⟨"A", [⟨0, "x", []⟩]⟩]⟩ 0 ⟨0, "x", []⟩ "ts" =
      some (⟨[⟨"A", [⟨0, "x", []⟩]⟩]⟩, true) := by
  rfl

/-- Claim C5: advancing task 0 out of the last column returns true, removes it
from every column and emits exactly one sink event with its display string and
full history; a subsequent advance returns false and a subsequent moveTask
returns false, but the subsequent removeTask does NOT return false as the claim
states: its single-removal assert fires (modelled none). -/
theorem advance_terminal_then_remove_asserts :
    Board.advance ⟨[⟨"New", []⟩, ⟨"Done", [⟨0, "A", ["h1"]⟩]⟩]⟩ 0 "ts" =
      some (⟨[⟨"New", []⟩, ⟨"Done", []⟩]⟩, true, [("0. A", ["h1"])]) ∧
    Board.advance ⟨[⟨"New", []⟩, ⟨"Done", []⟩]⟩ 0 "ts" =
      some (⟨[⟨"New", []⟩, ⟨"Done", []⟩]⟩, false, []) ∧
    Board.move_task ⟨[⟨"New", []⟩, ⟨"Done", []⟩]⟩ 1 0 "ts" =
      some (⟨[⟨"New", []⟩, ⟨"Done", []⟩]⟩, false) ∧
    Board.remove_task ⟨[⟨"New", []⟩, ⟨"Done", []⟩]⟩ 0 = none := by
  exact ⟨rfl, rfl, rfl, rfl⟩

/-- Claim C7 counterexample: moving task 0 to the column that already holds it
is not a no-op: the task is detached and re-appended, so it moves to the end of
the column and one history entry is appended to it. -/
theorem move_to_own_column_not_noop :
    Board.move_task ⟨[⟨"A", [⟨0, "x", []⟩, ⟨1, "y", []⟩]⟩]⟩ 0 0 "ts" =
      some (⟨[⟨"A", [⟨1, "y", []⟩, ⟨0, "x", ["> A : ts"]⟩]⟩]⟩, true) ∧
    (⟨[⟨"A", [⟨1, "y", []⟩, ⟨0, "x", ["> A : ts"]⟩]⟩]⟩ : Board) ≠
      ⟨[⟨"A", [⟨0, "x", []⟩, ⟨1, "y", []⟩]⟩]⟩ := by
  exact ⟨rfl, by decide⟩

/-- Setting a position to the element it already holds changes nothing. -/
theorem list_set_self {α : Type _} :
    ∀ (l : List α) (j : Nat) (a : α), l[j]? = some a → l.set j a = l
  | [], j, a, h => by cases h
  | x :: xs, 0, a, h => by
    simp only [List.getElem?_cons_zero, Option.some.injEq] at h
    rw [← h]
    rfl
  | x :: xs, j + 1, a, h => by
    simp only [List.getElem?_cons_succ] at h
    simp only [List.set_cons_succ]
    rw [list_set_self xs j a h]

/-- Claim C3 (amended): a column index at or above the column count makes
addTask and moveTask return false with the board untouched; a negative index
in range is not rejected but resolves Python-style by wrap-around, behaving
exactly like the corresponding in-range index. -/
theorem out_of_range_index_rejected :
    (∀ (b : Board) (idx : Int) (task : Task) (time : String),
        (b.m_columns.length : Int) ≤ idx →
        b.add_task idx task time = some (b, false)) ∧
    (∀ (b : Board) (idx : Int) (t : Nat) (time : String),
        (b.m_columns.length : Int) ≤ idx →
        b.move_task idx t time = some (b, false)) ∧
    (∀ (b : Board) (idx : Int) (task : Task) (time : String),
        -(b.m_columns.length : Int) ≤ idx → idx < 0 →
        b.add_task idx task time = b.add_task (idx + b.m_columns.length) task time) ∧
    (∀ (b : Board) (idx : Int) (t : Nat) (time : String),
        -(b.m_columns.length : Int) ≤ idx → idx < 0 →
        b.move_task idx t time = b.move_task (idx + b.m_columns.length) t time) := by
  refine ⟨?_, ?_, ?_, ?_⟩
  · intro b idx task time hge
    exact Board.add_task_eq_oob task time (by omega)
  · intro b idx t time hge
    exact Board.move_task_eq_oob t time (by omega)
  · intro b idx task time hlo hhi
    simp only [Board.add_task]
    rw [if_pos (show idx < (b.m_columns.length : Int) by omega),
      if_pos (show idx + b.m_columns.length < (b.m_columns.length : Int) by omega),
      pyIndex_neg hlo hhi]
  · intro b idx t time hlo hhi
    simp only [Board.move_task]
    rw [if_pos (show idx < (b.m_columns.length : Int) by omega),
      if_pos (show idx + b.m_columns.length < (b.m_columns.length : Int) by omega)]
    have hlen : ((b.m_columns.map (fun c => c.remove_task t)).map Prod.fst).length
        = b.m_columns.length := by simp
    rw [hlen, pyIndex_neg hlo hhi]

/-- Witness for claim C3 (amended) on a one-column board: index 5 is rejected
by both operations, index -1 behaves as index 0. -/
theorem out_of_range_index_rejected_witness :
    Board.add_task ⟨[⟨"A", []⟩]⟩ 5 ⟨0, "x", []⟩ "ts" = some (⟨[⟨"A", []⟩]⟩, false) ∧
    Board.move_task ⟨[⟨"A", []⟩]⟩ 5 0 "ts" = some (⟨[⟨"A", []⟩]⟩, false) ∧
    Board.add_task ⟨[⟨"A", []⟩]⟩ (-1) ⟨0, "x", []⟩ "ts"
      = Board.add_task ⟨[⟨"A", []⟩]⟩ (-1 + ((1 : Nat) : Int)) ⟨0, "x", []⟩ "ts" ∧
    Board.move_task ⟨[⟨"A", []⟩]⟩ (-1) 0 "ts"
      = Board.move_task ⟨[⟨"A", []⟩]⟩ (-1 + ((1 : Nat) : Int)) 0 "ts" :=
  ⟨out_of_range_index_rejected.1 ⟨[⟨"A", []⟩]⟩ 5 ⟨0, "x", []⟩ "ts" (by decide),
   out_of_range_index_rejected.2.1 ⟨[⟨"A", []⟩]⟩ 5 0 "ts" (by decide),
   out_of_range_index_rejected.2.2.1 ⟨[⟨"A", []⟩]⟩ (-1) ⟨0, "x", []⟩ "ts"
     (by decide) (by decide),
   out_of_range_index_rejected.2.2.2 ⟨[⟨"A", []⟩]⟩ (-1) 0 "ts" (by decide) (by decide)⟩

/-- Claim C4 (amended): adding a task already present in the in-range
destination column returns TRUE (the duplicate rejection of Column.add_task is
discarded by Board.add_task) but the board is unchanged, so no column mutates
and no history entry is appended. -/
theorem add_task_duplicate_amended (b : Board) (j : Nat) (c : Column) (task : Task)
    (time : String) (hj : b.m_columns[j]? = some c) (hmem : task ∈ c.m_tasks) :
    b.add_task (j : Int) task time = some (b, true) := by
  obtain ⟨hjl, hje⟩ := List.getElem?_eq_some.mp hj
  have hidx : (j : Int) < (b.m_columns.length : Int) := by exact_mod_cast hjl
  rw [Board.add_task_eq_ok task time hidx (pyIndex_coe hjl) hj]
  have hadd : (c.add_task task time).1 = c := by
    unfold Column.add_task
    rw [if_pos hmem]
  rw [hadd, list_set_self b.m_columns j c hj]

/-- Witness for claim C4 (amended): the duplicate add on a one-column board. -/
theorem add_task_duplicate_amended_witness :
    Board.add_task ⟨[⟨"A", [⟨0, "x", []⟩]⟩]⟩ ((0 : Nat) : Int) ⟨0, "x", []⟩ "ts"
      = some (⟨[⟨"A", [⟨0, "x", []⟩]⟩]⟩, true) :=
  add_task_duplicate_amended ⟨[⟨"A", [⟨0, "x", []⟩]⟩]⟩ 0 ⟨"A", [⟨0, "x", []⟩]⟩
    ⟨0, "x", []⟩ "ts" rfl (by decide)

/-- Scrubbing an id leaves the id-ignoring view of a column unchanged. -/
theorem otherView_remove (c : Column) (t : Nat) :
    otherView ((c.remove_task t).1) t = otherView c t := by
  rw [Column.remove_task_fst]
  unfold otherView
  simp [List.filter_filter]

/-- Adding a task with the ignored id leaves the id-ignoring view unchanged. -/
theorem otherView_add {c : Column} {task : Task} {t : Nat} (time : String)
    (h : task.m_id = t) : otherView ((c.add_task task time).1) t = otherView c t := by
  unfold Column.add_task
  by_cases hm : task ∈ c.m_tasks
  · rw [if_pos hm]
  · rw [if_neg hm]
    unfold otherView
    simp [Task.add_message, List.filter_append, h]

/-- Claim C10: a successful advance or moveTask changes only the moved task
itself: at every column position, the column name and the task list filtered of
the moved id (hence every other task, its relative order and its history) are
exactly what they were before. -/
theorem successful_move_advance_frame :
    (∀ (b : Board) (t : Nat) (time : String) (r : Board × Bool × List SinkEvent),
        b.advance t time = some r → r.2.1 = true →
        ∀ q : Nat, (r.1.m_columns[q]?).map (fun c => otherView c t)
          = (b.m_columns[q]?).map (fun c => otherView c t)) ∧
    (∀ (b : Board) (idx : Int) (t : Nat) (time : String) (r : Board × Bool),
        b.move_task idx t time = some r → r.2 = true →
        ∀ q : Nat, (r.1.m_columns[q]?).map (fun c => otherView c t)
          = (b.m_columns[q]?).map (fun c => otherView c t)) := by
  constructor
  · intro b t time r h hok q
    cases hsel : b.m_columns.enum.filter (fun p => p.2.contains t) with
    | nil =>
      rw [Board.advance_eq_nil time hsel] at h
      cases h
      simp at hok
    | cons x xs =>
      cases xs with
      | cons y ys =>
        rw [Board.advance_eq_multi time hsel] at h
        cases h
      | nil =>
        obtain ⟨col_id, col⟩ := x
        obtain ⟨hget, hcont, huniq⟩ := enum_filter_singleton hsel
        obtain ⟨task, htm, htid, hrem⟩ := Column.remove_task_contains hcont
        obtain ⟨hcl, hcole⟩ := List.getElem?_eq_some.mp hget
        have hview2 : otherView ⟨col.m_name, col.m_tasks.filter (fun x => !(x.m_id == t))⟩ t
            = otherView col t := by
          have := otherView_remove col t
          rw [hrem] at this
          exact this
        by_cases hlt : col_id + 1 < b.m_columns.length
        · obtain ⟨c2, hc2⟩ : ∃ cc, (b.m_columns.set col_id
              ⟨col.m_name, col.m_tasks.filter (fun x => !(x.m_id == t))⟩)[col_id + 1]? = some cc :=
            ⟨_, List.getElem?_eq_getElem (by simpa using hlt)⟩
          rw [Board.advance_eq_step hsel hrem hlt hc2] at h
          cases h
          dsimp only
          have hc2b : b.m_columns[col_id + 1]? = some c2 := by
            rw [List.getElem?_set, if_neg (by omega : ¬ col_id = col_id + 1)] at hc2
            exact hc2
          rw [List.getElem?_set, List.getElem?_set]
          by_cases h1 : col_id + 1 = q
          · rw [if_pos h1, if_pos (by simpa using (h1 ▸ hlt))]
            rw [← h1, hc2b]
            simp only [Option.map_some']
            rw [otherView_add time htid]
          · rw [if_neg h1]
            by_cases h2 : col_id = q
            · rw [if_pos h2, if_pos (h2 ▸ hcl), ← h2, hget]
              simp only [Option.map_some']
              rw [hview2]
            · rw [if_neg h2]
        · rw [Board.advance_eq_terminal hsel hrem hlt] at h
          cases h
          dsimp only
          rw [List.getElem?_set]
          by_cases h2 : col_id = q
          · rw [if_pos h2, if_pos (h2 ▸ hcl), ← h2, hget]
            simp only [Option.map_some']
            rw [hview2]
          · rw [if_neg h2]
  · intro b idx t time r h hok q
    by_cases hidx : idx < (b.m_columns.length : Int)
    · cases hfm : (b.m_columns.map (fun c => c.remove_task t)).filterMap Prod.snd with
      | nil =>
        rw [Board.move_task_eq_notfound time hidx hfm] at h
        cases h
        simp at hok
      | cons tk ts =>
        cases ts with
        | cons t2 ts2 =>
          rw [Board.move_task_eq_multi time hidx hfm] at h
          cases h
        | nil =>
          have hmemtk : tk ∈ (b.m_columns.map (fun c => c.remove_task t)).filterMap Prod.snd := by
            rw [hfm]
            exact List.mem_singleton.mpr rfl
          obtain ⟨htid, c0, hc0mem, hc0⟩ := detached_mem hmemtk
          cases hpy : pyIndex ((b.m_columns.map (fun c => c.remove_task t)).map Prod.fst).length idx with
          | none =>
            rw [Board.move_task_eq_pyerr time hidx hfm hpy] at h
            cases h
          | some jn =>
            have hjl : jn < ((b.m_columns.map (fun c => c.remove_task t)).map Prod.fst).length :=
              pyIndex_lt hpy
            obtain ⟨cj, hcj⟩ : ∃ c,
                ((b.m_columns.map (fun c => c.remove_task t)).map Prod.fst)[jn]? = some c :=
              ⟨_, List.getElem?_eq_getElem hjl⟩
            rw [Board.move_task_eq_found hidx hfm hpy hcj] at h
            cases h
            dsimp only
            have hmapq : ∀ (p : Nat),
                ((b.m_columns.map (fun c => c.remove_task t)).map Prod.fst)[p]?
                  = (b.m_columns[p]?).map (fun c => (c.remove_task t).1) := by
              intro p
              rw [List.getElem?_map, List.getElem?_map, Option.map_map]
              rfl
            rw [List.getElem?_set]
            by_cases h1 : jn = q
            · rw [if_pos h1, if_pos (h1 ▸ hjl)]
              rw [hmapq jn] at hcj
              obtain ⟨c0q, hc0q, hc0qe⟩ := Option.map_eq_some'.mp hcj
              rw [← h1, hc0q]
              simp only [Option.map_some']
              rw [otherView_add time htid, ← hc0qe, otherView_remove]
            · rw [if_neg h1, hmapq q]
              cases hbq : b.m_columns[q]? with
              | none => rfl
              | some cq =>
                simp only [Option.map_some']
                rw [otherView_remove]
    · rw [Board.move_task_eq_oob t time hidx] at h
      cases h
      simp at hok

/-- Witness for claim C10: advancing task 0 out of a two-task column and moving
it by moveTask, checking the unchanged view at column 0. -/
theorem successful_move_advance_frame_witness :
    (((⟨[⟨"A", [⟨1, "y", []⟩]⟩, ⟨"B", [⟨0, "x", ["> B : ts"]⟩]⟩]⟩ : Board).m_columns[0]?).map
        (fun c => otherView c 0)
      = (((⟨[⟨"A", [⟨0, "x", []⟩, ⟨1, "y", []⟩]⟩, ⟨"B", []⟩]⟩ : Board).m_columns[0]?).map
        (fun c => otherView c 0))) ∧
    (((⟨[⟨"A", [⟨1, "y", []⟩]⟩, ⟨"B", [⟨0, "x", ["> B : ts"]⟩]⟩]⟩ : Board).m_columns[1]?).map
        (fun c => otherView c 0)
      = (((⟨[⟨"A", [⟨0, "x", []⟩, ⟨1, "y", []⟩]⟩, ⟨"B", []⟩]⟩ : Board).m_columns[1]?).map
        (fun c => otherView c 0))) :=
  ⟨successful_move_advance_frame.1 ⟨[⟨"A", [⟨0, "x", []⟩, ⟨1, "y", []⟩]⟩, ⟨"B", []⟩]⟩ 0 "ts"
      (⟨[⟨"A", [⟨1, "y", []⟩]⟩, ⟨"B", [⟨0, "x", ["> B : ts"]⟩]⟩]⟩, true, []) rfl rfl 0,
   successful_move_advance_frame.2 ⟨[⟨"A", [⟨0, "x", []⟩, ⟨1, "y", []⟩]⟩, ⟨"B", []⟩]⟩ 1 0 "ts"
      (⟨[⟨"A", [⟨1, "y", []⟩]⟩, ⟨"B", [⟨0, "x", ["> B : ts"]⟩]⟩]⟩, true) rfl rfl 1⟩

/-- Witness for claim C8: creating one task on a fresh two-column board. -/
theorem exec_each_id_in_at_most_one_column_witness :
    (((⟨1, ⟨[⟨"New", [⟨0, "a", ["> New : t0"]⟩]⟩, ⟨"Done", []⟩]⟩⟩ : KState).board.m_columns.filter
      (fun c => c.contains 0)).length) ≤ 1 :=
  exec_each_id_in_at_most_one_column ["New", "Done"] [Op.create "a" "t0"]
    ⟨1, ⟨[⟨"New", [⟨0, "a", ["> New : t0"]⟩]⟩, ⟨"Done", []⟩]⟩⟩ (by decide) 0

/-- Writing at the position right after a prefix replaces the cons cell. -/
theorem set_append_cons {α : Type _} (l₁ l₂ : List α) (c x : α) :
    (l₁ ++ c :: l₂).set l₁.length x = l₁ ++ x :: l₂ := by
  rw [List.set_append, if_neg (lt_irrefl _)]
  simp

/-- Claim C7 (amended): moving a task to the column that already holds it
returns true and does not duplicate it — afterwards exactly one task with that
id exists, still in that column — but it is not a strict no-op: the task is
detached and re-appended at the end of the column with one history entry
appended; every other column is untouched. -/
theorem move_to_own_column_amended (b : Board) (j : Nat) (c : Column) (id : Nat)
    (time : String) (hj : b.m_columns[j]? = some c) (hc : c.contains id = true)
    (hothers : ∀ (k : Nat) (ck : Column), k ≠ j → b.m_columns[k]? = some ck →
      ck.contains id = false) :
    ∃ task, task ∈ c.m_tasks ∧ task.m_id = id ∧
      b.move_task (j : Int) id time =
        some (⟨b.m_columns.take j
          ++ ⟨c.m_name, c.m_tasks.filter (fun x => !(x.m_id == id))
                ++ [task.add_message ("> " ++ c.m_name ++ " : " ++ time)]⟩
          :: b.m_columns.drop (j + 1)⟩, true) := by
  obtain ⟨hjl, hje⟩ := List.getElem?_eq_some.mp hj
  obtain ⟨task, htm, htid, hrem⟩ := Column.remove_task_contains hc
  refine ⟨task, htm, htid, ?_⟩
  have hidx : (j : Int) < (b.m_columns.length : Int) := by exact_mod_cast hjl
  have hsplit : b.m_columns = b.m_columns.take j ++ c :: b.m_columns.drop (j + 1) := by
    conv_lhs => rw [← List.take_append_drop j b.m_columns]
    rw [List.drop_eq_getElem_cons hjl, hje]
  have htake : ∀ c' ∈ b.m_columns.take j, c'.contains id = false := by
    intro c' hm
    obtain ⟨k, hk⟩ := List.mem_iff_getElem?.mp hm
    rw [List.getElem?_take] at hk
    by_cases hkj : k < j
    · rw [if_pos hkj] at hk
      exact hothers k c' (by omega) hk
    · rw [if_neg hkj] at hk
      cases hk
  have hdrop : ∀ c' ∈ b.m_columns.drop (j + 1), c'.contains id = false := by
    intro c' hm
    obtain ⟨k, hk⟩ := List.mem_iff_getElem?.mp hm
    rw [List.getElem?_drop] at hk
    exact hothers (j + 1 + k) c' (by omega) hk
  have hfm : (b.m_columns.map (fun c' => c'.remove_task id)).filterMap Prod.snd = [task] := by
    rw [List.filterMap_map]
    conv_lhs => rw [hsplit]
    rw [List.filterMap_append, List.filterMap_cons]
    have h1 : List.filterMap (Prod.snd ∘ fun c' => c'.remove_task id)
        (b.m_columns.take j) = [] := by
      refine List.filterMap_eq_nil.mpr ?_
      intro c' hm
      have := Column.remove_task_not_contains (htake c' hm)
      simp [Function.comp, this]
    have h2 : List.filterMap (Prod.snd ∘ fun c' => c'.remove_task id)
        (b.m_columns.drop (j + 1)) = [] := by
      refine List.filterMap_eq_nil.mpr ?_
      intro c' hm
      have := Column.remove_task_not_contains (hdrop c' hm)
      simp [Function.comp, this]
    rw [h1, h2]
    simp [Function.comp, hrem]
  have hpy : pyIndex ((b.m_columns.map (fun c' => c'.remove_task id)).map Prod.fst).length
      (j : Int) = some j := by
    have hlen : ((b.m_columns.map (fun c' => c'.remove_task id)).map Prod.fst).length
        = b.m_columns.length := by simp
    rw [hlen]
    exact pyIndex_coe hjl
  have hmapq : ∀ (p : Nat), ((b.m_columns.map (fun c' => c'.remove_task id)).map Prod.fst)[p]?
      = (b.m_columns[p]?).map (fun c' => (c'.remove_task id).1) := by
    intro p
    rw [List.getElem?_map, List.getElem?_map, Option.map_map]
    rfl
  have hcd : ((b.m_columns.map (fun c' => c'.remove_task id)).map Prod.fst)[j]?
      = some (⟨c.m_name, c.m_tasks.filter (fun x => !(x.m_id == id))⟩ : Column) := by
    rw [hmapq j, hj]
    simp [hrem]
  rw [Board.move_task_eq_found hidx hfm hpy hcd]
  have hcols : (b.m_columns.map (fun c' => c'.remove_task id)).map Prod.fst
      = b.m_columns.take j
        ++ (⟨c.m_name, c.m_tasks.filter (fun x => !(x.m_id == id))⟩ : Column)
        :: b.m_columns.drop (j + 1) := by
    rw [List.map_map]
    conv_lhs => rw [hsplit]
    rw [List.map_append, List.map_cons]
    have hid1 : ∀ c' ∈ b.m_columns.take j,
        (Prod.fst ∘ fun c' => c'.remove_task id) c' = (fun x => x) c' := by
      intro c' hm
      have := Column.remove_task_not_contains (htake c' hm)
      simp [Function.comp, this]
    have hid2 : ∀ c' ∈ b.m_columns.drop (j + 1),
        (Prod.fst ∘ fun c' => c'.remove_task id) c' = (fun x => x) c' := by
      intro c' hm
      have := Column.remove_task_not_contains (hdrop c' hm)
      simp [Function.comp, this]
    rw [List.map_congr_left hid1, List.map_congr_left hid2, List.map_id', List.map_id']
    congr 1
    simp [Function.comp, hrem]
  rw [hcols]
  have htk : (b.m_columns.take j).length = j := by
    rw [List.length_take]
    omega
  have hset := set_append_cons (b.m_columns.take j) (b.m_columns.drop (j + 1))
    (⟨c.m_name, c.m_tasks.filter (fun x => !(x.m_id == id))⟩ : Column)
    (((⟨c.m_name, c.m_tasks.filter (fun x => !(x.m_id == id))⟩ : Column).add_task task time).1)
  rw [htk] at hset
  rw [hset]
  have hnm : task ∉ (⟨c.m_name, c.m_tasks.filter (fun x => !(x.m_id == id))⟩
      : Column).m_tasks := by
    intro hmem
    have := (List.mem_filter.mp hmem).2
    rw [htid] at this
    simp at this
  have hadd : ((⟨c.m_name, c.m_tasks.filter (fun x => !(x.m_id == id))⟩
      : Column).add_task task time).1
      = ⟨c.m_name, c.m_tasks.filter (fun x => !(x.m_id == id))
          ++ [task.add_message ("> " ++ c.m_name ++ " : " ++ time)]⟩ := by
    unfold Column.add_task
    rw [if_neg hnm]
  rw [hadd]

/-- Witness for claim C7 (amended): moving task 0 to its own single column. -/
theorem move_to_own_column_amended_witness :
    ∃ task, task ∈ ([⟨0, "x", []⟩, ⟨1, "y", []⟩] : List Task) ∧ task.m_id = 0 ∧
      Board.move_task ⟨[⟨"A", [⟨0, "x", []⟩, ⟨1, "y", []⟩]⟩]⟩ ((0 : Nat) : Int) 0 "ts"
        = some (⟨[⟨"A", [⟨1, "y", []⟩, task.add_message "> A : ts"]⟩]⟩, true) := by
  exact move_to_own_column_amended ⟨[⟨"A", [⟨0, "x", []⟩, ⟨1, "y", []⟩]⟩]⟩ 0
    ⟨"A", [⟨0, "x", []⟩, ⟨1, "y", []⟩]⟩ 0 "ts" rfl (by decide)
    (by
      intro k ck hk hck
      cases k with
      | zero => exact absurd rfl hk
      | succ n => simp at hck)

/-- The key-collecting fold of get_contents, on maps whose keys are fresh and
pairwise distinct, just appends the keys in order. -/
theorem dedup_fold_eq (ms : List (String × List String)) :
    ∀ (acc : List String), (∀ m ∈ ms, m.1 ∉ acc) → (ms.map Prod.fst).Nodup →
    ms.foldl (fun acc m => if m.1 ∈ acc then acc else acc ++ [m.1]) acc
      = acc ++ ms.map Prod.fst := by
  induction ms with
  | nil => intro acc _ _; simp
  | cons m rest ih =>
    intro acc hdisj hnd
    simp only [List.foldl_cons, List.map_cons]
    rw [if_neg (hdisj m (List.mem_cons_self _ _))]
    rw [ih (acc ++ [m.1]) ?_ (List.nodup_cons.mp hnd).2]
    · simp
    · intro m2 hm2
      simp only [List.mem_append, List.mem_singleton]
      rintro (h1 | h2)
      · exact hdisj m2 (List.mem_cons_of_mem _ hm2) h1
      · exact (List.nodup_cons.mp hnd).1 (h2 ▸ List.mem_map_of_mem Prod.fst hm2)

/-- Membership in the key-collecting fold of get_contents. -/
theorem mem_dedup_fold (ms : List (String × List String)) :
    ∀ (acc : List String) (k : String),
      (k ∈ ms.foldl (fun acc m => if m.1 ∈ acc then acc else acc ++ [m.1]) acc)
        ↔ k ∈ acc ∨ k ∈ ms.map Prod.fst := by
  induction ms with
  | nil => intro acc k; simp
  | cons m rest ih =>
    intro acc k
    simp only [List.foldl_cons, List.map_cons, List.mem_cons]
    by_cases hin : m.1 ∈ acc
    · rw [if_pos hin, ih]
      constructor
      · rintro (h | h)
        · exact Or.inl h
        · exact Or.inr (Or.inr h)
      · rintro (h | h | h)
        · exact Or.inl h
        · exact Or.inl (h ▸ hin)
        · exact Or.inr h
    · rw [if_neg hin, ih]
      simp only [List.mem_append, List.mem_singleton]
      constructor
      · rintro ((h | h) | h)
        · exact Or.inl h
        · exact Or.inr (Or.inl h)
        · exact Or.inr (Or.inr h)
      · rintro (h | h | h)
        · exact Or.inl (Or.inl h)
        · exact Or.inl (Or.inr h)
        · exact Or.inr h

/-- With pairwise-distinct keys, find? retrieves exactly the member map. -/
theorem find?_unique (ms : List (String × List String)) (hnd : (ms.map Prod.fst).Nodup)
    {m : String × List String} (hm : m ∈ ms) :
    ms.find? (fun x => x.1 == m.1) = some m := by
  induction ms with
  | nil => cases hm
  | cons a rest ih =>
    by_cases ha : a.1 = m.1
    · rw [List.find?_cons_of_pos _ (by simp [ha])]
      cases List.mem_cons.mp hm with
      | inl h => rw [h]
      | inr h =>
        exact absurd (ha ▸ List.mem_map_of_mem Prod.fst h) (List.nodup_cons.mp hnd).1
    · rw [List.find?_cons_of_neg _ (by simp [ha])]
      cases List.mem_cons.mp hm with
      | inl h => exact absurd (congrArg Prod.fst h).symm ha
      | inr h => exact ih (List.nodup_cons.mp hnd).2 h

/-- Looking a key up in the aggregated mapping built by get_contents. -/
theorem find?_filterMap_keys (maps : List (String × List String)) :
    ∀ (keys : List String) (k : String), (∀ k' ∈ keys, k' ∈ maps.map Prod.fst) →
    ((keys.filterMap
        (fun k' => (maps.find? (fun m => m.1 == k')).map (fun m => (k', m.2)))).find?
        (fun p => p.1 == k))
      = if k ∈ keys then (maps.find? (fun m => m.1 == k)).map (fun m => (k, m.2))
        else none := by
  intro keys
  induction keys with
  | nil => intro k _; simp
  | cons k0 rest ih =>
    intro k hsub
    obtain ⟨m0, hm0⟩ : ∃ m0, maps.find? (fun m => m.1 == k0) = some m0 := by
      have hk0 : k0 ∈ maps.map Prod.fst := hsub k0 (List.mem_cons_self _ _)
      obtain ⟨m, hm, he⟩ := List.mem_map.mp hk0
      cases hfind : maps.find? (fun m => m.1 == k0) with
      | none =>
        exfalso
        have := List.find?_eq_none.mp hfind m hm
        simp [he] at this
      | some m0 => exact ⟨m0, rfl⟩
    rw [List.filterMap_cons]
    simp only [hm0, Option.map_some']
    by_cases hk : k0 = k
    · subst hk
      rw [List.find?_cons_of_pos _ (by simp)]
      rw [if_pos (List.mem_cons_self _ _), hm0]
      rfl
    · rw [List.find?_cons_of_neg _ (by simp; exact fun he => hk he)]
      rw [ih k (fun k' h' => hsub k' (List.mem_cons_of_mem _ h'))]
      by_cases hkr : k ∈ rest
      · rw [if_pos hkr, if_pos (List.mem_cons_of_mem _ hkr)]
      · rw [if_neg hkr, if_neg ?_]
        intro hmem
        cases List.mem_cons.mp hmem with
        | inl h => exact hk h.symm
        | inr h => exact hkr h

/-- Claim C2 (amended): contents() keeps, for each column name, the snapshot of
the EARLIEST column bearing it (first conjunct, stated for every key), and with
pairwise-distinct column names the entries come out in REVERSE column order
(second conjunct). -/
theorem get_contents_amended :
    (∀ (b : Board) (k : String),
      (b.get_contents).find? (fun p => p.1 == k)
        = (b.m_columns.find? (fun c => c.m_name == k)).map
            (fun c => (k, (Column.get_contents c).2))) ∧
    (∀ b : Board, (b.m_columns.map Column.m_name).Nodup →
      b.get_contents = (b.m_columns.map Column.get_contents).reverse) := by
  have hnames : ∀ b : Board,
      (b.m_columns.map Column.get_contents).map Prod.fst = b.m_columns.map Column.m_name := by
    intro b
    rw [List.map_map]
    rfl
  constructor
  · intro b k
    unfold Board.get_contents
    rw [find?_filterMap_keys]
    · by_cases hmem : k ∈ (b.m_columns.map Column.get_contents).reverse.foldl
          (fun acc m => if m.1 ∈ acc then acc else acc ++ [m.1]) []
      · rw [if_pos hmem]
        rw [List.find?_map]
        have hpred : ((fun (m : String × List String) => m.1 == k) ∘ Column.get_contents)
            = (fun c : Column => c.m_name == k) := rfl
        rw [hpred]
        cases hfind : b.m_columns.find? (fun c => c.m_name == k) with
        | none => simp
        | some c0 => simp
      · rw [if_neg hmem]
        have hk : k ∉ b.m_columns.map Column.m_name := by
          intro hkk
          apply hmem
          rw [mem_dedup_fold]
          right
          rw [List.map_reverse, hnames, List.mem_reverse]
          exact hkk
        cases hfind : b.m_columns.find? (fun c => c.m_name == k) with
        | none => simp
        | some c0 =>
          exfalso
          apply hk
          have hname : c0.m_name = k := by
            have := List.find?_some hfind
            simpa using this
          exact hname ▸ List.mem_map_of_mem Column.m_name (List.mem_of_find?_eq_some hfind)
    · intro k' hk'
      rw [mem_dedup_fold] at hk'
      cases hk' with
      | inl h => cases h
      | inr h =>
        rw [List.map_reverse, List.mem_reverse] at h
        exact h
  · intro b hnd
    simp only [Board.get_contents]
    have hndrev : ((b.m_columns.map Column.get_contents).reverse.map Prod.fst).Nodup := by
      rw [List.map_reverse, List.nodup_reverse, hnames]
      exact hnd
    rw [dedup_fold_eq _ [] (fun m _ => List.not_mem_nil m.1) hndrev]
    rw [List.nil_append]
    rw [List.filterMap_map]
    have hpt : ∀ m ∈ (b.m_columns.map Column.get_contents).reverse,
        ((fun k => (((b.m_columns.map Column.get_contents).find?
            (fun m => m.1 == k)).map (fun m2 => (k, m2.2)))) ∘ Prod.fst) m = some m := by
      intro m hm
      have hmm : m ∈ b.m_columns.map Column.get_contents := List.mem_reverse.mp hm
      have := find?_unique (b.m_columns.map Column.get_contents)
        (by rw [hnames]; exact hnd) hmm
      simp [Function.comp, this]
    rw [List.filterMap_congr hpt, List.filterMap_some]

/-- Witness for claim C2 (amended): both conjuncts at a two-column board with
distinct names, the first column holding task 0. -/
theorem get_contents_amended_witness :
    ((Board.get_contents ⟨[⟨"X", [⟨0, "a", []⟩]⟩, ⟨"Y", []⟩]⟩).find?
        (fun p => p.1 == "X")
      = some ("X", ["0. a"])) ∧
    Board.get_contents ⟨[⟨"X", [⟨0, "a", []⟩]⟩, ⟨"Y", []⟩]⟩
      = [("Y", []), ("X", ["0. a"])] := by
  constructor
  · have h := get_contents_amended.1 ⟨[⟨"X", [⟨0, "a", []⟩]⟩, ⟨"Y", []⟩]⟩ "X"
    rw [h]
    rfl
  · have h := get_contents_amended.2 ⟨[⟨"X", [⟨0, "a", []⟩]⟩, ⟨"Y", []⟩]⟩ (by decide)
    rw [h]
    rfl

end KanbanModel
